import Mathlib

/-
Verification of the chunk partitioning core in
src/crates/turbopack-core/src/chunk/chunking.rs.

The Rust code is shallowly embedded: strings are lists of characters
(byte offsets become list indices; all idents of interest are ASCII),
the opaque handles of the host engine (chunk items, async info, chunk
types, the referenced-output-assets collection) are represented by
naturals (payload identity), and the mutable SplitContext is threaded
explicitly through the splitters.  The asynchronous structure of the
Rust code is irrelevant to the partitioning logic (the algorithm is
logically single threaded per invocation), so every function becomes a
pure function of its inputs.

One representational note: in the source, `ty.chunk(...)` builds an
opaque chunk handle from the members projected to (chunk_item,
async_info) pairs.  Since the constructor is external and opaque, the
embedding records the emission event: a `Chunk` keeps the full
`ChunkItemWithInfo` tuples it was built from together with the key the
emission used; `Chunk.pairs` is exactly the projection the source
applies when calling `ty.chunk`.
-/

namespace Chunking

/-- Strings are modelled as lists of characters. -/
abbrev Str := List Char

/-- The per-item information tuple `ChunkItemWithInfo` of the source:
chunk item handle, optional async info, size, asset ident string. -/
structure ChunkItemWithInfo where
  chunkItem : Nat
  asyncInfo : Option Nat
  size : Nat
  ident : Str
deriving DecidableEq, Repr, Inhabited

/-- A referenced-output-assets handle (`Vc<OutputAssets>`): either the
distinguished empty collection `OutputAssets::empty()` or an opaque
caller-supplied handle. -/
inductive SideRefs where
  | empty
  | handle (n : Nat)
deriving DecidableEq, Repr, Inhabited

/-- An emitted chunk: the record of one `ty.chunk(...)` construction in
`make_chunk`.  `members` keeps the full tuples handed to `make_chunk`;
the source passes their (chunk_item, async_info) projection (see
`Chunk.pairs`) plus the swapped-out referenced-output-assets handle.
`key` is the key string `make_chunk` was invoked with. -/
structure Chunk where
  ty : Nat
  members : List ChunkItemWithInfo
  sideRefs : SideRefs
  key : Str
deriving DecidableEq, Repr, Inhabited

/-- The (payload, async_info) projection that the source applies to the
members when constructing the chunk. -/
def Chunk.pairs (c : Chunk) : List (Nat × Option Nat) :=
  c.members.map (fun it => (it.chunkItem, it.asyncInfo))

/-- The mutable split context of the source, made explicit: the chunk
type of the current group, the output chunk list accumulated so far,
the current referenced-output-assets slot, and the cached empty
handle. -/
structure SplitContext where
  ty : Nat
  chunks : List Chunk
  sideRefs : SideRefs
  emptySideRefs : SideRefs
deriving DecidableEq, Repr

/-- Constant LARGE_CHUNK of the source. -/
def LARGE_CHUNK : Nat := 300000

/-- Constant SMALL_CHUNK of the source. -/
def SMALL_CHUNK : Nat := 30000

/-- Size classification of a candidate group. -/
inductive ChunkSize where
  | Large
  | Perfect
  | Small
deriving DecidableEq, Repr

/-- Total size of a group of chunk items, written as the specification
writes it (sum of the sizes). -/
def sizeSum (chunk_items : List ChunkItemWithInfo) : Nat :=
  (chunk_items.map (fun it => it.size)).sum

/-- Source function `chunk_size`: accumulates the total size in a loop
and classifies it against the two constants. -/
def chunk_size (chunk_items : List ChunkItemWithInfo) : ChunkSize :=
  let total_size := chunk_items.foldl (fun acc it => acc + it.size) 0
  if total_size ≥ LARGE_CHUNK then ChunkSize.Large
  else if total_size > SMALL_CHUNK then ChunkSize.Perfect
  else ChunkSize.Small

/-- Source function `make_chunk`: appends a chunk built from the given
items to the output list, moving the referenced-output-assets handle
out of the context slot and replacing it with the empty handle. -/
def make_chunk (chunk_items : List ChunkItemWithInfo) (key : Str)
    (split_context : SplitContext) : SplitContext :=
  { split_context with
    chunks := split_context.chunks ++
      [{ ty := split_context.ty, members := chunk_items,
         sideRefs := split_context.sideRefs, key := key }],
    sideRefs := split_context.emptySideRefs }

/-- Source function `handle_split_group`.  The Rust function mutates
`chunk_items` (emptying it with `take` when it is consumed) and the
optional `remaining` accumulator in place and returns a boolean; the
embedding returns (handled flag, updated context, updated remaining).
When the flag is false the caller keeps the untouched `chunk_items`. -/
def handle_split_group (chunk_items : List ChunkItemWithInfo) (key : Str)
    (split_context : SplitContext)
    (remaining : Option (List ChunkItemWithInfo)) :
    Bool × SplitContext × Option (List ChunkItemWithInfo) :=
  match chunk_size chunk_items, remaining with
  | ChunkSize.Large, rem => (false, split_context, rem)
  | ChunkSize.Perfect, rem =>
      (true, make_chunk chunk_items key split_context, rem)
  | ChunkSize.Small, none =>
      (true, make_chunk chunk_items key split_context, none)
  | ChunkSize.Small, some rem =>
      (true, split_context, some (rem ++ chunk_items))

/-- The literal string searched for by `is_app_code` and
`package_name`. -/
def nodeModulesLit : Str := "/node_modules/".data

/-- Length of the literal. -/
def nmLen : Nat := nodeModulesLit.length

/-- Boolean prefix test on character lists. -/
def isPrefixOfL : Str → Str → Bool
  | [], _ => true
  | _ :: _, [] => false
  | a :: as, b :: bs => a == b && isPrefixOfL as bs

/-- Substring containment test, modelling Rust `str::contains` with a
string pattern. -/
def containsSub (hay pat : Str) : Bool :=
  match hay with
  | [] => isPrefixOfL pat []
  | _ :: rest => isPrefixOfL pat hay || containsSub rest pat

/-- Source function `is_app_code`: the ident does not contain the
substring "/node_modules/". -/
def is_app_code (ident : Str) : Bool :=
  !(containsSub ident nodeModulesLit)

/-- Index of the first occurrence of a character in a list. -/
def findChar (c : Char) : Str → Option Nat
  | [] => none
  | x :: xs => if x = c then some 0 else (findChar c xs).map (· + 1)

/-- Source function `folder_name`: searches the ident from `location`
for the next '/'.  On success returns the prefix through that slash and
the next location; otherwise the full ident and no location. -/
def folder_name (ident : Str) (location : Nat) : Str × Option Nat :=
  match findChar '/' (ident.drop location) with
  | some offset =>
      let new_location := location + offset + 1
      (ident.take new_location, some new_location)
  | none => (ident, none)

/-- Length of the maximal slash-free prefix, the length a greedy
match of the regex piece `[^/]+` consumes (zero when it fails). -/
def takeNonSlash (s : Str) : Nat :=
  (s.takeWhile (fun c => c != '/')).length

/-- Greedy match length of the regex tail `[^/]+` (at least one
character), used as the no-scope alternative of the package pattern. -/
def pkgTailLen (s : Str) : Option Nat :=
  if takeNonSlash s = 0 then none else some (takeNonSlash s)

/-- Match length, at the position just after the literal
"/node_modules/", of the leftmost-first (Rust regex default) match of
the pattern remainder `(?:@[^/]+/)?[^/]+`: the optional scope group is
tried greedily first and the engine falls back to the plain `[^/]+`
when it cannot complete. -/
def pkgMatchLen (s : Str) : Option Nat :=
  match s with
  | '@' :: rest =>
      let r := takeNonSlash rest
      if 1 ≤ r then
        match rest.drop r with
        | '/' :: rest2 =>
            if 1 ≤ takeNonSlash rest2 then some (1 + r + 1 + takeNonSlash rest2)
            else pkgTailLen s
        | _ => pkgTailLen s
      else pkgTailLen s
  | _ => pkgTailLen s

/-- One scan step of the regex iterator `find_iter` for the pattern
"/node_modules/((?:@[^/]+/)?[^/]+)", keeping only the last full match
found so far (Rust: `find_iter(ident).last()`).  The iterator yields
non-overlapping leftmost-first matches; after a match it resumes just
past the match end, after a failed position it advances one
character. -/
def pkgFindLast (s : Str) (acc : Option Str) : Option Str :=
  match s with
  | [] => acc
  | c :: rest =>
      if isPrefixOfL nodeModulesLit (c :: rest) then
        match pkgMatchLen ((c :: rest).drop nmLen) with
        | some r =>
            pkgFindLast (((c :: rest).drop nmLen).drop r)
              (some ((c :: rest).take (nmLen + r)))
        | none => pkgFindLast rest acc
      else pkgFindLast rest acc
termination_by s.length
decreasing_by
  · simp [nmLen, nodeModulesLit]
    omega
  · simp
  · simp

/-- Source function `package_name`: the part of the last regex match
after the leading "/node_modules/", or the empty string when the
pattern does not match. -/
def package_name (ident : Str) : Str :=
  match pkgFindLast ident none with
  | some m => m.drop nmLen
  | none => []

/-- Specification-side companion of `package_name`: the list of all
(non-overlapping, leftmost-first) matches of the package pattern in
order.  The specification describes `package_name` as the last element
of this list, stripped of the leading literal. -/
def pkgMatchList (s : Str) : List Str :=
  match s with
  | [] => []
  | c :: rest =>
      if isPrefixOfL nodeModulesLit (c :: rest) then
        match pkgMatchLen ((c :: rest).drop nmLen) with
        | some r =>
            ((c :: rest).take (nmLen + r)) ::
              pkgMatchList (((c :: rest).drop nmLen).drop r)
        | none => pkgMatchList rest
      else pkgMatchList rest
termination_by s.length
decreasing_by
  · simp [nmLen, nodeModulesLit]
    omega
  · simp
  · simp

/-- Specification-side definition of the package name, following the
specification text: the last match of the pattern in the ident,
stripped of the leading "/node_modules/"; the empty string when there
is no match. -/
def package_name_spec (ident : Str) : Str :=
  match (pkgMatchList ident).getLast? with
  | some m => m.drop nmLen
  | none => []

/-- An insertion-ordered grouping bucket, modelling one entry of the
source's IndexMap-based groupings: the key, extra data recorded when
the bucket was created (from its first item), and the items in
insertion order. -/
structure KBucket (κ : Type) (ε : Type) (α : Type) where
  key : κ
  extra : ε
  items : List α
deriving DecidableEq, Repr

/-- Insertion into an insertion-ordered grouping: append to an existing
bucket with the same key, or create a new bucket at the end.  This is
the behaviour of the source's IndexMap updates. -/
def insertKB {κ ε α : Type} [DecidableEq κ]
    (m : List (KBucket κ ε α)) (k : κ) (e : ε) (a : α) :
    List (KBucket κ ε α) :=
  match m with
  | [] => [⟨k, e, [a]⟩]
  | b :: rest =>
      if b.key = k then ⟨b.key, b.extra, b.items ++ [a]⟩ :: rest
      else b :: insertKB rest k e a

/-- Insertion-ordered grouping of a list by a key (plus extra data from
the first item of each bucket). -/
def groupKB {κ ε α : Type} [DecidableEq κ]
    (keyOf : α → κ × ε) (l : List α) : List (KBucket κ ε α) :=
  l.foldl (fun m a => insertKB m (keyOf a).1 (keyOf a).2 a) []

/-- The grouping built at the head of `folder_split`: items grouped by
folder name at the current location, each bucket also recording the
next location of its first item. -/
def buildFolderMap (chunk_items : List ChunkItemWithInfo)
    (location : Nat) : List (KBucket Str (Option Nat) ChunkItemWithInfo) :=
  groupKB (fun it => folder_name it.ident location) chunk_items

/-- Termination measure for the folder splitter: total remaining ident
length (plus one per item) beyond the current location. -/
def itemsMeasure (chunk_items : List ChunkItemWithInfo) (location : Nat) : Nat :=
  (chunk_items.map (fun it => it.ident.length + 1 - location)).sum

/-- Weight of one folder bucket for the termination measure of the
bucket-processing phase: buckets with a next location may cause a
recursive folder split at that location; buckets without one never
recurse. -/
def bucketWeight (b : KBucket Str (Option Nat) ChunkItemWithInfo) : Nat :=
  match b.extra with
  | some nl => itemsMeasure b.items nl + 1
  | none => 0

/-- Total weight of a folder-bucket list. -/
def mapWeight (m : List (KBucket Str (Option Nat) ChunkItemWithInfo)) : Nat :=
  (m.map bucketWeight).sum

/-! Facts about `findChar` and `folder_name`. -/

theorem findChar_some_split {c : Char} {s : Str} {i : Nat}
    (h : findChar c s = some i) :
    ∃ u v, s = u ++ c :: v ∧ u.length = i := by
  induction s generalizing i with
  | nil => simp [findChar] at h
  | cons x xs ih =>
    by_cases hx : x = c
    · subst hx
      simp [findChar] at h
      exact ⟨[], xs, by simp, by simp [← h]⟩
    · simp [findChar, hx] at h
      rcases h with ⟨j, hj, hji⟩
      rcases ih hj with ⟨u, v, huv, hlen⟩
      exact ⟨x :: u, v, by simp [huv], by simp [hlen, ← hji]⟩

theorem findChar_none_mem {c : Char} {s : Str}
    (h : findChar c s = none) : c ∉ s := by
  induction s with
  | nil => simp
  | cons x xs ih =>
    by_cases hx : x = c
    · simp [findChar, hx] at h
    · simp [findChar, hx] at h
      simp [ih h, Ne.symm hx]

theorem folder_name_some {ident : Str} {location : Nat} {f : Str} {nl : Nat}
    (h : folder_name ident location = (f, some nl)) :
    location < nl ∧ nl ≤ ident.length ∧ f = ident.take nl ∧
      '/' ∈ f.drop location := by
  unfold folder_name at h
  rcases hf : findChar '/' (ident.drop location) with _ | off
  · rw [hf] at h; simp at h
  · rw [hf] at h
    rw [Prod.mk.injEq] at h
    have hfst : ident.take (location + off + 1) = f := h.1
    have hnl : nl = location + off + 1 := by
      have h2 := h.2
      simp only [Option.some.injEq] at h2
      omega
    rcases findChar_some_split hf with ⟨u, v, huv, hlen⟩
    have hdroplen : (ident.drop location).length = ident.length - location :=
      List.length_drop _ _
    have hofflt : off < ident.length - location := by
      rw [← hdroplen, huv]
      simp [← hlen]
    refine ⟨by omega, by omega, by rw [← hfst, hnl], ?_⟩
    have hfd : f.drop location = (ident.drop location).take (nl - location) := by
      rw [← hfst, hnl, List.drop_take]
    rw [hfd, huv]
    have huv1 : nl - location = u.length + 1 := by omega
    rw [huv1, List.take_append]
    simp

theorem folder_name_none {ident : Str} {location : Nat} {f : Str}
    (h : folder_name ident location = (f, none)) :
    f = ident ∧ '/' ∉ f.drop location := by
  unfold folder_name at h
  rcases hf : findChar '/' (ident.drop location) with _ | off
  · rw [hf] at h
    rw [Prod.mk.injEq] at h
    refine ⟨h.1.symm, ?_⟩
    rw [h.1.symm]
    exact findChar_none_mem hf
  · rw [hf] at h; simp at h

theorem folder_name_clash {x y : Str} {location : Nat} {f : Str} {nl : Nat}
    (hx : folder_name x location = (f, some nl))
    (hy : folder_name y location = (f, none)) : False := by
  have h1 := (folder_name_some hx).2.2.2
  have h2 := (folder_name_none hy).2
  exact h2 h1

/-! Facts about the insertion-ordered grouping. -/

theorem mem_insertKB {κ ε α : Type} [DecidableEq κ]
    {m : List (KBucket κ ε α)} {k : κ} {e : ε} {a : α}
    {b : KBucket κ ε α} (h : b ∈ insertKB m k e a) :
    b ∈ m ∨ b = ⟨k, e, [a]⟩ ∨
      ∃ b₀, b₀ ∈ m ∧ b₀.key = k ∧ b = ⟨b₀.key, b₀.extra, b₀.items ++ [a]⟩ := by
  induction m with
  | nil =>
    simp [insertKB] at h
    exact Or.inr (Or.inl h)
  | cons hd rest ih =>
    by_cases hk : hd.key = k
    · simp [insertKB, hk] at h
      rcases h with h | h
      · exact Or.inr (Or.inr ⟨hd, by simp, hk, by rw [h, hk]⟩)
      · exact Or.inl (List.mem_cons_of_mem _ h)
    · simp [insertKB, hk] at h
      rcases h with h | h
      · exact Or.inl (by simp [h])
      · rcases ih h with h' | h' | ⟨b₀, hb₀, hkey, hb⟩
        · exact Or.inl (List.mem_cons_of_mem _ h')
        · exact Or.inr (Or.inl h')
        · exact Or.inr (Or.inr ⟨b₀, List.mem_cons_of_mem _ hb₀, hkey, hb⟩)

theorem groupKB_mem_rec {κ ε α : Type} [DecidableEq κ]
    {keyOf : α → κ × ε} {l : List α} {Q : KBucket κ ε α → Prop}
    (hnew : ∀ a, Q ⟨(keyOf a).1, (keyOf a).2, [a]⟩)
    (hext : ∀ b a', Q b → b.key = (keyOf a').1 →
      Q ⟨b.key, b.extra, b.items ++ [a']⟩) :
    ∀ b ∈ groupKB keyOf l, Q b := by
  suffices h : ∀ (m : List (KBucket κ ε α)), (∀ b ∈ m, Q b) →
      ∀ b ∈ l.foldl (fun m a => insertKB m (keyOf a).1 (keyOf a).2 a) m, Q b by
    exact h [] (by simp)
  induction l with
  | nil => intro m hm b hb; exact hm b hb
  | cons a l ih =>
    intro m hm b hb
    refine ih _ ?_ b hb
    intro b' hb'
    rcases mem_insertKB hb' with h' | h' | ⟨b₀, hb₀, hkey, hbeq⟩
    · exact hm b' h'
    · rw [h']; exact hnew a
    · rw [hbeq]; exact hext b₀ a (hm b₀ hb₀) hkey

theorem groupKB_items_ne_nil {κ ε α : Type} [DecidableEq κ]
    {keyOf : α → κ × ε} {l : List α} :
    ∀ b ∈ groupKB keyOf l, b.items ≠ [] := by
  refine groupKB_mem_rec (fun a => by simp) (fun b a' _ _ => by simp)

theorem groupKB_key_eq {κ ε α : Type} [DecidableEq κ]
    {keyOf : α → κ × ε} {l : List α} :
    ∀ b ∈ groupKB keyOf l, ∀ x ∈ b.items, (keyOf x).1 = b.key := by
  refine groupKB_mem_rec (fun a => by simp) ?_
  intro b a' hb hkey
  intro x hx
  simp at hx
  rcases hx with hx | hx
  · exact hb x hx
  · simp [hx, hkey]

theorem groupKB_extra_witness {κ ε α : Type} [DecidableEq κ]
    {keyOf : α → κ × ε} {l : List α} :
    ∀ b ∈ groupKB keyOf l, ∃ x, x ∈ b.items ∧ keyOf x = (b.key, b.extra) := by
  refine groupKB_mem_rec (fun a => ⟨a, by simp⟩) ?_
  intro b a' hb _
  rcases hb with ⟨x, hx, hxe⟩
  exact ⟨x, by simp [hx], hxe⟩

theorem insertKB_flatMap_perm {κ ε α : Type} [DecidableEq κ]
    (m : List (KBucket κ ε α)) (k : κ) (e : ε) (a : α) :
    ((insertKB m k e a).flatMap KBucket.items).Perm
      (m.flatMap KBucket.items ++ [a]) := by
  induction m with
  | nil => simp [insertKB]
  | cons hd rest ih =>
    by_cases hk : hd.key = k
    · simp only [insertKB, hk, if_pos rfl]
      simp only [List.flatMap_cons]
      have h1 : ((hd.items ++ [a]) ++ rest.flatMap KBucket.items).Perm
          (hd.items ++ (rest.flatMap KBucket.items ++ [a])) := by
        rw [List.append_assoc]
        exact List.Perm.append_left _ List.perm_append_comm
      have h2 : hd.items ++ (rest.flatMap KBucket.items ++ [a]) =
          (hd.items ++ rest.flatMap KBucket.items) ++ [a] := by
        rw [List.append_assoc]
      rw [← h2]
      exact h1
    · simp only [insertKB, if_neg hk]
      simp only [List.flatMap_cons]
      have h1 : (hd.items ++ (insertKB rest k e a).flatMap KBucket.items).Perm
          (hd.items ++ (rest.flatMap KBucket.items ++ [a])) :=
        List.Perm.append_left _ ih
      rw [← List.append_assoc] at h1
      exact h1

theorem groupKB_flatMap_perm {κ ε α : Type} [DecidableEq κ]
    (keyOf : α → κ × ε) (l : List α) :
    ((groupKB keyOf l).flatMap KBucket.items).Perm l := by
  suffices h : ∀ (m : List (KBucket κ ε α)),
      ((l.foldl (fun m a => insertKB m (keyOf a).1 (keyOf a).2 a) m).flatMap
        KBucket.items).Perm (m.flatMap KBucket.items ++ l) by
    simpa using h []
  induction l with
  | nil => intro m; simp
  | cons a l ih =>
    intro m
    simp only [List.foldl_cons]
    refine (ih _).trans ?_
    refine (List.Perm.append_right l (insertKB_flatMap_perm m _ _ a)).trans ?_
    simp [List.append_assoc]

/-! Measure lemmas for the folder splitter's termination. -/

theorem itemsMeasure_append (x y : List ChunkItemWithInfo) (location : Nat) :
    itemsMeasure (x ++ y) location =
      itemsMeasure x location + itemsMeasure y location := by
  simp [itemsMeasure, List.sum_append]

theorem itemsMeasure_perm {l l' : List ChunkItemWithInfo} (location : Nat)
    (h : l.Perm l') : itemsMeasure l location = itemsMeasure l' location :=
  List.Perm.sum_eq (h.map _)

theorem itemsMeasure_mono_loc {l : List ChunkItemWithInfo} {location nl : Nat}
    (h : location ≤ nl) : itemsMeasure l nl ≤ itemsMeasure l location :=
  List.sum_le_sum fun _ _ => Nat.sub_le_sub_left h _

theorem itemsMeasure_flatMap
    (m : List (KBucket Str (Option Nat) ChunkItemWithInfo)) (location : Nat) :
    itemsMeasure (m.flatMap KBucket.items) location =
      (m.map (fun b => itemsMeasure b.items location)).sum := by
  induction m with
  | nil => simp [itemsMeasure]
  | cons b rest ih => simp [List.flatMap_cons, itemsMeasure_append, ih]

theorem buildFolderMap_flatMap_perm (chunk_items : List ChunkItemWithInfo)
    (location : Nat) :
    ((buildFolderMap chunk_items location).flatMap KBucket.items).Perm
      chunk_items := by
  unfold buildFolderMap
  exact groupKB_flatMap_perm _ _

theorem bucket_measure_le {chunk_items : List ChunkItemWithInfo}
    {location : Nat} {b : KBucket Str (Option Nat) ChunkItemWithInfo}
    (hb : b ∈ buildFolderMap chunk_items location) :
    itemsMeasure b.items location ≤ itemsMeasure chunk_items location := by
  have hperm := buildFolderMap_flatMap_perm chunk_items location
  rcases List.append_of_mem hb with ⟨s, t, hst⟩
  have : itemsMeasure ((buildFolderMap chunk_items location).flatMap
      KBucket.items) location = itemsMeasure chunk_items location :=
    itemsMeasure_perm location hperm
  rw [hst] at this
  simp only [List.flatMap_append, List.flatMap_cons] at this
  rw [itemsMeasure_append, itemsMeasure_append] at this
  omega

theorem bucket_measure_strict {chunk_items : List ChunkItemWithInfo}
    {location : Nat} {b : KBucket Str (Option Nat) ChunkItemWithInfo}
    {nl : Nat} (hb : b ∈ buildFolderMap chunk_items location)
    (hnl : b.extra = some nl) :
    itemsMeasure b.items nl < itemsMeasure b.items location := by
  rcases groupKB_extra_witness b hb with ⟨w, hw, hwkey⟩
  rw [hnl] at hwkey
  have hfs := folder_name_some hwkey
  rcases List.append_of_mem hw with ⟨s, t, hst⟩
  rw [hst]
  rw [show s ++ w :: t = s ++ [w] ++ t by simp]
  rw [itemsMeasure_append, itemsMeasure_append,
      itemsMeasure_append, itemsMeasure_append]
  have h1 : itemsMeasure s nl ≤ itemsMeasure s location :=
    itemsMeasure_mono_loc (le_of_lt hfs.1)
  have h2 : itemsMeasure t nl ≤ itemsMeasure t location :=
    itemsMeasure_mono_loc (le_of_lt hfs.1)
  have h3 : itemsMeasure [w] nl < itemsMeasure [w] location := by
    simp [itemsMeasure]
    have := hfs.1
    have := hfs.2.1
    omega
  omega

theorem folderMap_measure_lt {chunk_items : List ChunkItemWithInfo}
    {location : Nat} {b : KBucket Str (Option Nat) ChunkItemWithInfo}
    {nl : Nat} (hb : b ∈ buildFolderMap chunk_items location)
    (hnl : b.extra = some nl) :
    itemsMeasure b.items nl < itemsMeasure chunk_items location :=
  lt_of_lt_of_le (bucket_measure_strict hb hnl) (bucket_measure_le hb)

theorem mapWeight_le {chunk_items : List ChunkItemWithInfo} {location : Nat} :
    mapWeight (buildFolderMap chunk_items location) ≤
      itemsMeasure chunk_items location := by
  have h1 : mapWeight (buildFolderMap chunk_items location) ≤
      ((buildFolderMap chunk_items location).map
        (fun b => itemsMeasure b.items location)).sum := by
    refine List.sum_le_sum ?_
    intro b hb
    unfold bucketWeight
    rcases hx : b.extra with _ | nl
    · exact Nat.zero_le _
    · exact bucket_measure_strict hb hx
  have h2 : ((buildFolderMap chunk_items location).map
      (fun b => itemsMeasure b.items location)).sum =
      itemsMeasure chunk_items location := by
    rw [← itemsMeasure_flatMap]
    exact itemsMeasure_perm location (buildFolderMap_flatMap_perm _ _)
  exact le_trans h1 (le_of_eq h2)

/-! Uniformity of folder buckets: all idents in a bucket agree with the
bucket key (a shared prefix through a slash, or the whole ident). -/

theorem buildFolderMap_key_eq {chunk_items : List ChunkItemWithInfo}
    {location : Nat} :
    ∀ b ∈ buildFolderMap chunk_items location, ∀ x ∈ b.items,
      (folder_name x.ident location).1 = b.key := by
  unfold buildFolderMap
  exact groupKB_key_eq

theorem buildFolderMap_extra_witness {chunk_items : List ChunkItemWithInfo}
    {location : Nat} :
    ∀ b ∈ buildFolderMap chunk_items location,
      ∃ x, x ∈ b.items ∧ folder_name x.ident location = (b.key, b.extra) := by
  unfold buildFolderMap
  exact groupKB_extra_witness

theorem buildFolderMap_items_ne_nil {chunk_items : List ChunkItemWithInfo}
    {location : Nat} :
    ∀ b ∈ buildFolderMap chunk_items location, b.items ≠ [] := by
  unfold buildFolderMap
  exact groupKB_items_ne_nil

theorem folderBucket_none_uniform {chunk_items : List ChunkItemWithInfo}
    {location : Nat} {b : KBucket Str (Option Nat) ChunkItemWithInfo}
    (hb : b ∈ buildFolderMap chunk_items location) (hn : b.extra = none) :
    ∀ x ∈ b.items, x.ident = b.key := by
  intro x hx
  rcases buildFolderMap_extra_witness b hb with ⟨w, _, hwfn⟩
  rw [hn] at hwfn
  have hxk := buildFolderMap_key_eq b hb x hx
  rcases hfx : folder_name x.ident location with ⟨fx, _ | k⟩
  · have := (folder_name_none hfx).1
    rw [hfx] at hxk
    simp at hxk
    rw [← this, hxk]
  · exfalso
    rw [hfx] at hxk
    simp at hxk
    rw [hxk] at hfx
    exact folder_name_clash hfx hwfn

theorem folderBucket_some_uniform {chunk_items : List ChunkItemWithInfo}
    {location : Nat} {b : KBucket Str (Option Nat) ChunkItemWithInfo}
    {nl : Nat} (hb : b ∈ buildFolderMap chunk_items location)
    (hs : b.extra = some nl) :
    ∀ x ∈ b.items, nl ≤ x.ident.length ∧ x.ident.take nl = b.key := by
  intro x hx
  rcases buildFolderMap_extra_witness b hb with ⟨w, _, hwfn⟩
  rw [hs] at hwfn
  have hwf := folder_name_some hwfn
  have hkeylen : b.key.length = nl := by
    rw [hwf.2.2.1, List.length_take]
    have := hwf.2.1
    omega
  have hxk := buildFolderMap_key_eq b hb x hx
  rcases hfx : folder_name x.ident location with ⟨fx, _ | k⟩
  · exfalso
    rw [hfx] at hxk
    simp at hxk
    rw [hxk] at hfx
    exact folder_name_clash hwfn hfx
  · rw [hfx] at hxk
    simp at hxk
    rw [hxk] at hfx
    have hxf := folder_name_some hfx
    have hklen : b.key.length = k := by
      rw [hxf.2.2.1, List.length_take]
      have := hxf.2.1
      omega
    have hkn : k = nl := by omega
    rw [hkn] at hxf
    exact ⟨hxf.2.1, hxf.2.2.1.symm⟩

/-! The folder splitter.  The Rust `folder_split` consists of a
single-bucket shortcut loop (source lines 239-266) followed by a
bucket–processing pass with a shared remaining accumulator and a final
flush (lines 267-284).  The embedding separates the two phases:
`folderShortcut` is the loop (returning either the terminal
single-bucket emission data or the final bucket map and location), and
`bucketPhase` is the pass and flush. -/

/-- The single-bucket shortcut loop of `folder_split`.  While the
folder grouping of the items has exactly one bucket: if that bucket has
a next location, restart from its items at that location; if not,
return the data of the terminal chunk emission (`Sum.inl`).  As soon as
the map has a different number of buckets (zero or at least two),
return it together with the current location (`Sum.inr`). -/
def folderShortcut (chunk_items : List ChunkItemWithInfo) (location : Nat) :
    (Str × List ChunkItemWithInfo) ⊕
      (List (KBucket Str (Option Nat) ChunkItemWithInfo) × Nat) :=
  match h : buildFolderMap chunk_items location with
  | [b] =>
      match h2 : b.extra with
      | some nl => folderShortcut b.items nl
      | none => Sum.inl (b.key, b.items)
  | m => Sum.inr (m, location)
termination_by itemsMeasure chunk_items location
decreasing_by
  exact folderMap_measure_lt (by rw [h]; simp) h2

theorem folderShortcut_nil {chunk_items : List ChunkItemWithInfo}
    {location : Nat} (h : buildFolderMap chunk_items location = []) :
    folderShortcut chunk_items location = Sum.inr ([], location) := by
  rw [folderShortcut, h]

theorem folderShortcut_singleton_some {chunk_items : List ChunkItemWithInfo}
    {location : Nat} {b : KBucket Str (Option Nat) ChunkItemWithInfo}
    {nl : Nat} (h : buildFolderMap chunk_items location = [b])
    (h2 : b.extra = some nl) :
    folderShortcut chunk_items location = folderShortcut b.items nl := by
  obtain ⟨bk, be, bi⟩ := b
  simp only at h2
  subst h2
  rw [folderShortcut, h]

theorem folderShortcut_singleton_none {chunk_items : List ChunkItemWithInfo}
    {location : Nat} {b : KBucket Str (Option Nat) ChunkItemWithInfo}
    (h : buildFolderMap chunk_items location = [b]) (h2 : b.extra = none) :
    folderShortcut chunk_items location = Sum.inl (b.key, b.items) := by
  obtain ⟨bk, be, bi⟩ := b
  simp only at h2
  subst h2
  rw [folderShortcut, h]

theorem folderShortcut_many {chunk_items : List ChunkItemWithInfo}
    {location : Nat} {b1 b2 : KBucket Str (Option Nat) ChunkItemWithInfo}
    {rest : List (KBucket Str (Option Nat) ChunkItemWithInfo)}
    (h : buildFolderMap chunk_items location = b1 :: b2 :: rest) :
    folderShortcut chunk_items location =
      Sum.inr (b1 :: b2 :: rest, location) := by
  rw [folderShortcut, h]

theorem folderShortcut_inr_weight :
    ∀ (chunk_items : List ChunkItemWithInfo) (location : Nat)
      (m' : List (KBucket Str (Option Nat) ChunkItemWithInfo)) (loc' : Nat),
      folderShortcut chunk_items location = Sum.inr (m', loc') →
      mapWeight m' ≤ itemsMeasure chunk_items location := by
  intro chunk_items location
  induction chunk_items, location using folderShortcut.induct with
  | case1 chunk_items location b h nl h2 ih =>
    intro m' loc' heq
    rw [folderShortcut_singleton_some h h2] at heq
    have hlt := folderMap_measure_lt (b := b) (by rw [h]; simp) h2
    exact le_trans (ih m' loc' heq) (le_of_lt hlt)
  | case2 chunk_items location b h h2 =>
    intro m' loc' heq
    rw [folderShortcut_singleton_none h h2] at heq
    simp at heq
  | case3 chunk_items location hne =>
    intro m' loc' heq
    rcases hm : buildFolderMap chunk_items location with _ | ⟨b1, _ | ⟨b2, rest⟩⟩
    · rw [folderShortcut_nil hm] at heq
      injection heq with heq1
      injection heq1 with hm' hloc
      rw [← hm']
      simp [mapWeight]
    · exact absurd hm (hne b1)
    · rw [folderShortcut_many hm] at heq
      injection heq with heq1
      injection heq1 with hm' hloc
      rw [← hm', ← hm]
      exact mapWeight_le

/-- The bucket-processing phase of `folder_split` (source lines
267-284): iterate over the buckets in insertion order with a shared
remaining accumulator; a Large bucket with a next location is split
recursively (re-entering the shortcut loop), a Large bucket without one
is emitted directly; after the last bucket a non-empty accumulator is
flushed under the key built from the shared ident prefix of its first
item, emitting even when the flush group is Large. -/
def bucketPhase (m : List (KBucket Str (Option Nat) ChunkItemWithInfo))
    (location : Nat) (name : Str) (split_context : SplitContext)
    (remaining : List ChunkItemWithInfo) : SplitContext :=
  match m with
  | [] =>
      match remaining with
      | [] => split_context
      | r0 :: rs =>
          let key := name ++ '-' :: r0.ident.take location
          match handle_split_group (r0 :: rs) key split_context none with
          | (false, sc, _) => make_chunk (r0 :: rs) key sc
          | (true, sc, _) => sc
  | b :: rest =>
      let key := name ++ '-' :: b.key
      match handle_split_group b.items key split_context (some remaining) with
      | (true, sc, rem) => bucketPhase rest location name sc (rem.getD remaining)
      | (false, sc, _) =>
          match hext : b.extra with
          | some nl =>
              let sc1 :=
                match hfs : folderShortcut b.items nl with
                | Sum.inl (fn, list) => make_chunk list (name ++ '-' :: fn) sc
                | Sum.inr (m', loc') => bucketPhase m' loc' name sc []
              bucketPhase rest location name sc1 remaining
          | none =>
              bucketPhase rest location name (make_chunk b.items key sc) remaining
termination_by (mapWeight m, m.length)
decreasing_by
  · apply Prod.Lex.right'
    · simp [mapWeight]
    · simp
  · apply Prod.Lex.left
    calc mapWeight m' ≤ itemsMeasure b.items nl :=
          folderShortcut_inr_weight b.items nl m' loc' hfs
      _ < bucketWeight b := by simp [bucketWeight, hext]
      _ ≤ mapWeight (b :: rest) := by simp [mapWeight]
  · apply Prod.Lex.right'
    · simp [mapWeight]
    · simp
  · apply Prod.Lex.right'
    · simp [mapWeight]
    · simp

/-- Source function `folder_split`: run the shortcut loop; on the
terminal single-bucket case emit one chunk, otherwise run the bucket
phase with an empty remaining accumulator. -/
def folder_split (chunk_items : List ChunkItemWithInfo) (location : Nat)
    (name : Str) (split_context : SplitContext) : SplitContext :=
  match folderShortcut chunk_items location with
  | Sum.inl (fn, list) =>
      make_chunk list (name ++ '-' :: fn) split_context
  | Sum.inr (m, loc') => bucketPhase m loc' name split_context []

/-- The per-package loop of `package_name_split` (source lines
207-212): handle each package group with the shared remaining
accumulator; a Large group is folder-split from location 0 under the
package key. -/
def pkgLoop (m : List (KBucket Str Unit ChunkItemWithInfo)) (name : Str)
    (split_context : SplitContext) (remaining : List ChunkItemWithInfo) :
    SplitContext × List ChunkItemWithInfo :=
  match m with
  | [] => (split_context, remaining)
  | b :: rest =>
      let key := name ++ '-' :: b.key
      match handle_split_group b.items key split_context (some remaining) with
      | (true, sc, rem) => pkgLoop rest name sc (rem.getD remaining)
      | (false, sc, _) => pkgLoop rest name (folder_split b.items 0 key sc) remaining

/-- Source function `package_name_split`: group the items by package
name in insertion order, run the per-package loop, then flush a
non-empty remaining accumulator under the outer name (folder-splitting
it when it is Large). -/
def package_name_split (chunk_items : List ChunkItemWithInfo) (name : Str)
    (split_context : SplitContext) : SplitContext :=
  let map := groupKB (fun it => (package_name it.ident, ())) chunk_items
  match pkgLoop map name split_context [] with
  | (sc, remaining) =>
      match remaining with
      | [] => sc
      | r0 :: rs =>
          match handle_split_group (r0 :: rs) name sc none with
          | (true, sc', _) => sc'
          | (false, sc', _) => folder_split (r0 :: rs) 0 name sc'

/-- Source function `app_vendors_split`: partition the items into app
code and vendor code, handle each side with a shared remaining
accumulator (recursing into the folder splitter for Large app code and
into the package splitter for Large vendor code), then flush a
non-empty remaining accumulator under the outer name (package-splitting
it when it is Large). -/
def app_vendors_split (chunk_items : List ChunkItemWithInfo) (name : Str)
    (split_context : SplitContext) : SplitContext :=
  let app_chunk_items := chunk_items.filter (fun it => is_app_code it.ident)
  let vendors_chunk_items :=
    chunk_items.filter (fun it => !is_app_code it.ident)
  let key_app := name ++ "-app".data
  match handle_split_group app_chunk_items key_app split_context (some []) with
  | (handled_app, sc1, rem1) =>
      let sc2 := if handled_app then sc1
        else folder_split app_chunk_items 0 key_app sc1
      let key_vendors := name ++ "-vendors".data
      match handle_split_group vendors_chunk_items key_vendors sc2
          (some (rem1.getD [])) with
      | (handled_vendors, sc3, rem2) =>
          let sc4 := if handled_vendors then sc3
            else package_name_split vendors_chunk_items key_vendors sc3
          match rem2.getD [] with
          | [] => sc4
          | r0 :: rs =>
              match handle_split_group (r0 :: rs) name sc4 none with
              | (true, sc5, _) => sc5
              | (false, sc5, _) => package_name_split (r0 :: rs) name sc5

/-- The environment of external collaborators consulted by
`make_chunks`: resolving an item's chunk type, stringifying a type
name, querying an item's size through its type, and stringifying an
item's asset ident. -/
structure ChunkEnv where
  tyOf : Nat → Nat
  tyName : Nat → Str
  itemSize : Nat → Nat → Option Nat → Nat
  identOf : Nat → Str

/-- The per-chunk-type loop of `make_chunks`: for each type group,
materialize the (item, async info, size, ident) tuples, build a fresh
split context sharing the output list and the referenced-output-assets
slot, and run the app/vendor splitter under the prefixed type name. -/
def tyInfos (env : ChunkEnv) (ty : Nat) (l : List (Nat × Option Nat)) :
    List ChunkItemWithInfo :=
  l.map (fun p =>
    { chunkItem := p.1, asyncInfo := p.2,
      size := env.itemSize ty p.1 p.2,
      ident := env.identOf p.1 : ChunkItemWithInfo })

def tyLoop (env : ChunkEnv)
    (m : List (KBucket Nat Unit (Nat × Option Nat)))
    (prefixKey : Str) (chunks : List Chunk) (sideRefs : SideRefs) :
    List Chunk × SideRefs :=
  match m with
  | [] => (chunks, sideRefs)
  | b :: rest =>
      let infos := tyInfos env b.key b.items
      let sc : SplitContext :=
        { ty := b.key, chunks := chunks, sideRefs := sideRefs,
          emptySideRefs := SideRefs.empty }
      let sc' := app_vendors_split infos (prefixKey ++ env.tyName b.key) sc
      tyLoop env rest prefixKey sc'.chunks sc'.sideRefs

/-- Source function `make_chunks`: resolve each input pair's chunk
type, group the pairs by type preserving first-seen order, and run the
splitter pipeline for each group, threading the output list and the
referenced-output-assets slot (so the very first emitted chunk receives
the caller's handle and the slot is empty afterwards). -/
def make_chunks (env : ChunkEnv) (chunk_items : List (Nat × Option Nat))
    (prefixKey : Str) (referenced_output_assets : SideRefs) : List Chunk :=
  let map := groupKB (fun p : Nat × Option Nat => (env.tyOf p.1, ())) chunk_items
  (tyLoop env map prefixKey [] referenced_output_assets).1

/-! Classifier facts. -/

theorem foldl_size_eq (chunk_items : List ChunkItemWithInfo) :
    chunk_items.foldl (fun acc it => acc + it.size) 0 = sizeSum chunk_items := by
  suffices h : ∀ n, chunk_items.foldl (fun acc it => acc + it.size) n =
      n + sizeSum chunk_items by
    simpa using h 0
  induction chunk_items with
  | nil => intro n; simp [sizeSum]
  | cons it l ih =>
    intro n
    simp only [List.foldl_cons, ih]
    simp [sizeSum]
    omega

theorem chunk_size_eq_spec (l : List ChunkItemWithInfo) :
    chunk_size l =
      if LARGE_CHUNK ≤ sizeSum l then ChunkSize.Large
      else if SMALL_CHUNK < sizeSum l then ChunkSize.Perfect
      else ChunkSize.Small := by
  unfold chunk_size
  rw [foldl_size_eq]

theorem chunk_size_Large_iff (l : List ChunkItemWithInfo) :
    chunk_size l = ChunkSize.Large ↔ LARGE_CHUNK ≤ sizeSum l := by
  rw [chunk_size_eq_spec]
  unfold LARGE_CHUNK SMALL_CHUNK
  split_ifs with h1 h2 <;> simp_all <;> omega

theorem chunk_size_Perfect_iff (l : List ChunkItemWithInfo) :
    chunk_size l = ChunkSize.Perfect ↔
      SMALL_CHUNK < sizeSum l ∧ sizeSum l < LARGE_CHUNK := by
  rw [chunk_size_eq_spec]
  unfold LARGE_CHUNK SMALL_CHUNK
  split_ifs with h1 h2 <;> simp_all <;> omega

theorem chunk_size_Small_iff (l : List ChunkItemWithInfo) :
    chunk_size l = ChunkSize.Small ↔ sizeSum l ≤ SMALL_CHUNK := by
  rw [chunk_size_eq_spec]
  unfold LARGE_CHUNK SMALL_CHUNK
  split_ifs with h1 h2 <;> simp_all <;> omega

theorem member_size_le_sizeSum {l : List ChunkItemWithInfo}
    {x : ChunkItemWithInfo} (hx : x ∈ l) : x.size ≤ sizeSum l := by
  rcases List.append_of_mem hx with ⟨s, t, hst⟩
  rw [hst]
  simp [sizeSum, List.sum_append]
  omega

/-! The per-chunk and per-delta invariants used to settle the
make_chunks level claims. -/

/-- Disjunctive size/shape property of the members of an emitted
chunk: it is below the Large threshold, or all its members share one
full ident (an unsplittable single branch), or every member is
individually Small-sized (the shape of a flushed remaining
accumulator). -/
def Dmembers (l : List ChunkItemWithInfo) : Prop :=
  sizeSum l < LARGE_CHUNK ∨ (∀ x ∈ l, ∀ y ∈ l, x.ident = y.ident) ∨
    (∀ x ∈ l, x.size ≤ SMALL_CHUNK)

instance (l : List ChunkItemWithInfo) : Decidable (Dmembers l) := by
  unfold Dmembers
  infer_instance

/-- The side-refs transfer discipline of a sequence of emitted chunks:
starting from slot value s with empty handle e, the first chunk (if
any) carries s, all later chunks carry e, and the slot ends as s (no
emission) or e. -/
def chainOK : List Chunk → SideRefs → SideRefs → SideRefs → Prop
  | [], s, _, s' => s' = s
  | c :: rest, s, e, s' =>
      c.sideRefs = s ∧ (∀ d ∈ rest, d.sideRefs = e) ∧ s' = e

/-- Relation between an input split context and the context after one
of the splitters ran on `inputs`: the splitter appended some chunks
whose members are exactly `inputs` (as a multiset), respected the
side-refs transfer discipline, preserved the cached empty handle, and
every appended chunk is non-empty and satisfies `Dmembers`. -/
def deltaOK (sc sc' : SplitContext) (inputs : List ChunkItemWithInfo) : Prop :=
  sc'.emptySideRefs = sc.emptySideRefs ∧
  ∃ ds, sc'.chunks = sc.chunks ++ ds ∧
    (ds.flatMap Chunk.members).Perm inputs ∧
    chainOK ds sc.sideRefs sc.emptySideRefs sc'.sideRefs ∧
    ∀ c ∈ ds, c.members ≠ [] ∧ Dmembers c.members

theorem chainOK_from_empty {ds : List Chunk} {e s' : SideRefs}
    (h : chainOK ds e e s') : (∀ d ∈ ds, d.sideRefs = e) ∧ s' = e := by
  cases ds with
  | nil => exact ⟨by simp, h⟩
  | cons c rest =>
    obtain ⟨hc, ht, hs⟩ := h
    refine ⟨?_, hs⟩
    intro d hd
    rcases List.mem_cons.mp hd with hd | hd
    · rw [hd]; exact hc
    · exact ht d hd

theorem chainOK_append {ds1 ds2 : List Chunk} {s e s1 s2 : SideRefs}
    (h1 : chainOK ds1 s e s1) (h2 : chainOK ds2 s1 e s2) :
    chainOK (ds1 ++ ds2) s e s2 := by
  cases ds1 with
  | nil =>
    have h1x : s1 = s := h1
    rw [h1x] at h2
    simpa using h2
  | cons c rest =>
    obtain ⟨hc, ht, hs⟩ := h1
    rw [hs] at h2
    have h2' := chainOK_from_empty h2
    refine ⟨hc, ?_, h2'.2⟩
    intro d hd
    rcases List.mem_append.mp hd with hd | hd
    · exact ht d hd
    · exact h2'.1 d hd

theorem deltaOK_refl (sc : SplitContext) : deltaOK sc sc [] := by
  refine ⟨rfl, [], by simp, by simp, ?_, by simp⟩
  simp [chainOK]

theorem deltaOK_trans {sc sc' sc'' : SplitContext}
    {xs ys : List ChunkItemWithInfo} (h1 : deltaOK sc sc' xs)
    (h2 : deltaOK sc' sc'' ys) : deltaOK sc sc'' (xs ++ ys) := by
  obtain ⟨he1, ds1, hc1, hp1, hch1, hm1⟩ := h1
  obtain ⟨he2, ds2, hc2, hp2, hch2, hm2⟩ := h2
  refine ⟨he2.trans he1, ds1 ++ ds2, ?_, ?_, ?_, ?_⟩
  · rw [hc2, hc1, List.append_assoc]
  · rw [List.flatMap_append]
    exact List.Perm.append hp1 hp2
  · rw [he1] at hch2
    exact chainOK_append hch1 hch2
  · intro c hc
    rcases List.mem_append.mp hc with hc | hc
    · exact hm1 c hc
    · exact hm2 c hc

theorem deltaOK_perm {sc sc' : SplitContext} {xs ys : List ChunkItemWithInfo}
    (h : deltaOK sc sc' xs) (hp : xs.Perm ys) : deltaOK sc sc' ys := by
  obtain ⟨he, ds, hc, hperm, hch, hm⟩ := h
  exact ⟨he, ds, hc, hperm.trans hp, hch, hm⟩

theorem deltaOK_make_chunk {chunk_items : List ChunkItemWithInfo} {key : Str}
    {sc : SplitContext} (hne : chunk_items ≠ [])
    (hD : Dmembers chunk_items) :
    deltaOK sc (make_chunk chunk_items key sc) chunk_items := by
  refine ⟨rfl, [⟨sc.ty, chunk_items, sc.sideRefs, key⟩], by simp [make_chunk], ?_,
    ?_, ?_⟩
  · simp
  · exact ⟨rfl, by simp, rfl⟩
  · intro c hc
    simp at hc
    rw [hc]
    exact ⟨hne, hD⟩

/-! Inversion lemmas for `handle_split_group`. -/

theorem handle_some_inv {chunk_items : List ChunkItemWithInfo} {key : Str}
    {sc : SplitContext} {rem : List ChunkItemWithInfo} {b : Bool}
    {sc' : SplitContext} {rem' : Option (List ChunkItemWithInfo)}
    (h : handle_split_group chunk_items key sc (some rem) = (b, sc', rem')) :
    (b = false ∧ chunk_size chunk_items = ChunkSize.Large ∧ sc' = sc ∧
      rem' = some rem) ∨
    (b = true ∧ chunk_size chunk_items = ChunkSize.Perfect ∧
      sc' = make_chunk chunk_items key sc ∧ rem' = some rem) ∨
    (b = true ∧ chunk_size chunk_items = ChunkSize.Small ∧ sc' = sc ∧
      rem' = some (rem ++ chunk_items)) := by
  rcases hcs : chunk_size chunk_items with _ | _ | _ <;>
    · unfold handle_split_group at h
      rw [hcs] at h
      injection h with h1 h2
      injection h2 with h2 h3
      simp_all

theorem handle_none_inv {chunk_items : List ChunkItemWithInfo} {key : Str}
    {sc : SplitContext} {b : Bool} {sc' : SplitContext}
    {rem' : Option (List ChunkItemWithInfo)}
    (h : handle_split_group chunk_items key sc none = (b, sc', rem')) :
    (b = false ∧ chunk_size chunk_items = ChunkSize.Large ∧ sc' = sc ∧
      rem' = none) ∨
    (b = true ∧ chunk_size chunk_items ≠ ChunkSize.Large ∧
      sc' = make_chunk chunk_items key sc ∧ rem' = none) := by
  rcases hcs : chunk_size chunk_items with _ | _ | _ <;>
    · unfold handle_split_group at h
      rw [hcs] at h
      injection h with h1 h2
      injection h2 with h2 h3
      simp_all

/-! Structure of the shortcut loop's results. -/

theorem folderShortcut_inl_spec :
    ∀ (chunk_items : List ChunkItemWithInfo) (location : Nat) (fn : Str)
      (list : List ChunkItemWithInfo),
      folderShortcut chunk_items location = Sum.inl (fn, list) →
      list.Perm chunk_items ∧ list ≠ [] ∧ ∀ x ∈ list, x.ident = fn := by
  intro chunk_items location
  induction chunk_items, location using folderShortcut.induct with
  | case1 chunk_items location b h nl h2 ih =>
    intro fn list heq
    rw [folderShortcut_singleton_some h h2] at heq
    obtain ⟨hperm, hne, hid⟩ := ih fn list heq
    have hb : b.items.Perm chunk_items := by
      have := buildFolderMap_flatMap_perm chunk_items location
      rw [h] at this
      simpa using this
    exact ⟨hperm.trans hb, hne, hid⟩
  | case2 chunk_items location b h h2 =>
    intro fn list heq
    rw [folderShortcut_singleton_none h h2] at heq
    injection heq with heq1
    injection heq1 with hfn hlist
    have hbmem : b ∈ buildFolderMap chunk_items location := by rw [h]; simp
    have hb : b.items.Perm chunk_items := by
      have := buildFolderMap_flatMap_perm chunk_items location
      rw [h] at this
      simpa using this
    refine ⟨hlist ▸ hb, hlist ▸ buildFolderMap_items_ne_nil b hbmem, ?_⟩
    intro x hx
    rw [← hlist] at hx
    rw [← hfn]
    exact folderBucket_none_uniform hbmem h2 x hx
  | case3 chunk_items location hne =>
    intro fn list heq
    rcases hm : buildFolderMap chunk_items location with _ | ⟨b1, _ | ⟨b2, rest⟩⟩
    · rw [folderShortcut_nil hm] at heq
      simp at heq
    · exact absurd hm (hne b1)
    · rw [folderShortcut_many hm] at heq
      simp at heq

theorem folderShortcut_inr_spec :
    ∀ (chunk_items : List ChunkItemWithInfo) (location : Nat)
      (m' : List (KBucket Str (Option Nat) ChunkItemWithInfo)) (loc' : Nat),
      folderShortcut chunk_items location = Sum.inr (m', loc') →
      ((m'.flatMap KBucket.items).Perm chunk_items) ∧
      ∀ b ∈ m', b.items ≠ [] ∧
        (b.extra = none → ∀ x ∈ b.items, x.ident = b.key) ∧
        (∀ nl, b.extra = some nl → ∀ x ∈ b.items,
          nl ≤ x.ident.length ∧ x.ident.take nl = b.key) := by
  intro chunk_items location
  induction chunk_items, location using folderShortcut.induct with
  | case1 chunk_items location b h nl h2 ih =>
    intro m' loc' heq
    rw [folderShortcut_singleton_some h h2] at heq
    obtain ⟨hperm, hrest⟩ := ih m' loc' heq
    have hb : b.items.Perm chunk_items := by
      have := buildFolderMap_flatMap_perm chunk_items location
      rw [h] at this
      simpa using this
    exact ⟨hperm.trans hb, hrest⟩
  | case2 chunk_items location b h h2 =>
    intro m' loc' heq
    rw [folderShortcut_singleton_none h h2] at heq
    simp at heq
  | case3 chunk_items location hne =>
    intro m' loc' heq
    rcases hm : buildFolderMap chunk_items location with _ | ⟨b1, _ | ⟨b2, rest⟩⟩
    · rw [folderShortcut_nil hm] at heq
      injection heq with heq1
      injection heq1 with hm' hloc
      subst hm'
      have := buildFolderMap_flatMap_perm chunk_items location
      rw [hm] at this
      exact ⟨by simpa using this, by simp⟩
    · exact absurd hm (hne b1)
    · rw [folderShortcut_many hm] at heq
      injection heq with heq1
      injection heq1 with hm' hloc
      subst hm'
      have hperm := buildFolderMap_flatMap_perm chunk_items location
      rw [hm] at hperm
      refine ⟨hperm, ?_⟩
      intro b hb
      have hbmem : b ∈ buildFolderMap chunk_items location := by rw [hm]; exact hb
      refine ⟨buildFolderMap_items_ne_nil b hbmem, ?_, ?_⟩
      · intro hnone
        exact folderBucket_none_uniform hbmem hnone
      · intro nl hsome
        exact folderBucket_some_uniform hbmem hsome

/-! Unfolding lemmas for `bucketPhase`. -/

theorem bucketPhase_nil_nil {location : Nat} {name : Str}
    {sc : SplitContext} : bucketPhase [] location name sc [] = sc := by
  rw [bucketPhase]

theorem bucketPhase_flush_false {location : Nat} {name : Str}
    {sc sc2 : SplitContext} {r0 : ChunkItemWithInfo}
    {rs : List ChunkItemWithInfo} {o : Option (List ChunkItemWithInfo)}
    (h : handle_split_group (r0 :: rs) (name ++ '-' :: r0.ident.take location)
      sc none = (false, sc2, o)) :
    bucketPhase [] location name sc (r0 :: rs) =
      make_chunk (r0 :: rs) (name ++ '-' :: r0.ident.take location) sc2 := by
  rw [bucketPhase]
  simp only [h]

theorem bucketPhase_flush_true {location : Nat} {name : Str}
    {sc sc2 : SplitContext} {r0 : ChunkItemWithInfo}
    {rs : List ChunkItemWithInfo} {o : Option (List ChunkItemWithInfo)}
    (h : handle_split_group (r0 :: rs) (name ++ '-' :: r0.ident.take location)
      sc none = (true, sc2, o)) :
    bucketPhase [] location name sc (r0 :: rs) = sc2 := by
  rw [bucketPhase]
  simp only [h]

theorem bucketPhase_cons_true {location : Nat} {name : Str}
    {sc sc2 : SplitContext} {b : KBucket Str (Option Nat) ChunkItemWithInfo}
    {rest : List (KBucket Str (Option Nat) ChunkItemWithInfo)}
    {remaining : List ChunkItemWithInfo}
    {rem2 : Option (List ChunkItemWithInfo)}
    (h : handle_split_group b.items (name ++ '-' :: b.key) sc
      (some remaining) = (true, sc2, rem2)) :
    bucketPhase (b :: rest) location name sc remaining =
      bucketPhase rest location name sc2 (rem2.getD remaining) := by
  rw [bucketPhase]
  simp only [h]

theorem bucketPhase_cons_false_none {location : Nat} {name : Str}
    {sc sc2 : SplitContext} {b : KBucket Str (Option Nat) ChunkItemWithInfo}
    {rest : List (KBucket Str (Option Nat) ChunkItemWithInfo)}
    {remaining : List ChunkItemWithInfo}
    {o : Option (List ChunkItemWithInfo)}
    (h : handle_split_group b.items (name ++ '-' :: b.key) sc
      (some remaining) = (false, sc2, o)) (hext : b.extra = none) :
    bucketPhase (b :: rest) location name sc remaining =
      bucketPhase rest location name
        (make_chunk b.items (name ++ '-' :: b.key) sc2) remaining := by
  obtain ⟨bk, be, bi⟩ := b
  simp only at hext h
  subst hext
  rw [bucketPhase]
  simp only [h]

theorem bucketPhase_cons_false_some_inl {location : Nat} {name : Str}
    {sc sc2 : SplitContext} {b : KBucket Str (Option Nat) ChunkItemWithInfo}
    {rest : List (KBucket Str (Option Nat) ChunkItemWithInfo)}
    {remaining : List ChunkItemWithInfo}
    {o : Option (List ChunkItemWithInfo)} {nl : Nat} {fn : Str}
    {list : List ChunkItemWithInfo}
    (h : handle_split_group b.items (name ++ '-' :: b.key) sc
      (some remaining) = (false, sc2, o)) (hext : b.extra = some nl)
    (hfs : folderShortcut b.items nl = Sum.inl (fn, list)) :
    bucketPhase (b :: rest) location name sc remaining =
      bucketPhase rest location name
        (make_chunk list (name ++ '-' :: fn) sc2) remaining := by
  obtain ⟨bk, be, bi⟩ := b
  simp only at hext h hfs
  subst hext
  rw [bucketPhase]
  simp only [h]
  split
  · rename_i fn' list' heq
    rw [hfs] at heq
    injection heq with heq1
    injection heq1 with h1 h2
    rw [h1, h2]
  · rename_i m' loc' heq
    rw [hfs] at heq
    simp at heq

theorem bucketPhase_cons_false_some_inr {location : Nat} {name : Str}
    {sc sc2 : SplitContext} {b : KBucket Str (Option Nat) ChunkItemWithInfo}
    {rest : List (KBucket Str (Option Nat) ChunkItemWithInfo)}
    {remaining : List ChunkItemWithInfo}
    {o : Option (List ChunkItemWithInfo)} {nl : Nat}
    {m' : List (KBucket Str (Option Nat) ChunkItemWithInfo)} {loc' : Nat}
    (h : handle_split_group b.items (name ++ '-' :: b.key) sc
      (some remaining) = (false, sc2, o)) (hext : b.extra = some nl)
    (hfs : folderShortcut b.items nl = Sum.inr (m', loc')) :
    bucketPhase (b :: rest) location name sc remaining =
      bucketPhase rest location name
        (bucketPhase m' loc' name sc2 []) remaining := by
  obtain ⟨bk, be, bi⟩ := b
  simp only at hext h hfs
  subst hext
  rw [bucketPhase]
  simp only [h]
  split
  · rename_i fn' list' heq
    rw [hfs] at heq
    simp at heq
  · rename_i m'' loc'' heq
    rw [hfs] at heq
    injection heq with heq1
    injection heq1 with h1 h2
    rw [h1, h2]

theorem mapWeight_cons (b : KBucket Str (Option Nat) ChunkItemWithInfo)
    (rest : List (KBucket Str (Option Nat) ChunkItemWithInfo)) :
    mapWeight (b :: rest) = bucketWeight b + mapWeight rest := by
  simp [mapWeight]

theorem ne_nil_of_small_lt_sizeSum {l : List ChunkItemWithInfo}
    (h : SMALL_CHUNK < sizeSum l) : l ≠ [] := by
  intro hnil
  rw [hnil] at h
  simp [sizeSum] at h

theorem perm_rot (X R B : List ChunkItemWithInfo) :
    (X ++ (R ++ B)).Perm (B ++ (X ++ R)) := by
  rw [← List.append_assoc]
  exact List.perm_append_comm

/-- Main characterization of the bucket phase: provided every bucket is
non-empty and ident-uniform when it has no next location, and every
accumulated remaining item is Small-sized, the phase appends chunks
that repartition exactly the buckets' items plus the accumulator,
respecting the side-refs discipline and the per-chunk size/shape
property. -/
theorem bucketPhase_delta :
    ∀ (W : Nat) (m : List (KBucket Str (Option Nat) ChunkItemWithInfo))
      (location : Nat) (name : Str) (sc : SplitContext)
      (remaining : List ChunkItemWithInfo),
      mapWeight m ≤ W →
      (∀ b ∈ m, b.items ≠ [] ∧
        (b.extra = none → ∀ x ∈ b.items, x.ident = b.key)) →
      (∀ x ∈ remaining, x.size ≤ SMALL_CHUNK) →
      deltaOK sc (bucketPhase m location name sc remaining)
        (m.flatMap KBucket.items ++ remaining) := by
  intro W
  induction W using Nat.strong_induction_on with
  | _ W ihW =>
  intro m
  induction m with
  | nil =>
    intro location name sc remaining _ _ Hrem
    rcases remaining with _ | ⟨r0, rs⟩
    · rw [bucketPhase_nil_nil]
      simpa using deltaOK_refl sc
    · rcases hh : handle_split_group (r0 :: rs)
        (name ++ '-' :: r0.ident.take location) sc none with ⟨bb, sc2, o⟩
      rcases handle_none_inv hh with ⟨hb1, hcs, hsc, ho⟩ | ⟨hb1, hcs, hsc, ho⟩
      · subst hb1
        rw [bucketPhase_flush_false hh]
        rw [hsc]
        refine deltaOK_perm (deltaOK_make_chunk (by simp) ?_) (by simp)
        exact Or.inr (Or.inr Hrem)
      · subst hb1
        rw [bucketPhase_flush_true hh]
        rw [hsc]
        refine deltaOK_perm (deltaOK_make_chunk (by simp) ?_) (by simp)
        left
        by_contra hge
        exact hcs ((chunk_size_Large_iff _).mpr (by omega))
  | cons b rest ihm =>
    intro location name sc remaining hW Hb Hrem
    have hWrest : mapWeight rest ≤ W := by
      rw [mapWeight_cons] at hW
      omega
    have Hbrest : ∀ b' ∈ rest, b'.items ≠ [] ∧
        (b'.extra = none → ∀ x ∈ b'.items, x.ident = b'.key) :=
      fun b' hb' => Hb b' (List.mem_cons_of_mem _ hb')
    have Hbb := Hb b (List.mem_cons_self _ _)
    rcases hh : handle_split_group b.items (name ++ '-' :: b.key) sc
      (some remaining) with ⟨bb, sc2, rem2⟩
    rcases handle_some_inv hh with ⟨hb1, hcs, hsc, ho⟩ |
      ⟨hb1, hcs, hsc, ho⟩ | ⟨hb1, hcs, hsc, ho⟩
    · -- Large: recurse deeper into this bucket
      subst hb1
      rw [hsc] at hh
      rcases hbe : b.extra with _ | nl
      · -- no next location: emit the bucket directly
        rw [bucketPhase_cons_false_none hh hbe]
        have h1 : deltaOK sc (make_chunk b.items (name ++ '-' :: b.key) sc)
            b.items := by
          refine deltaOK_make_chunk Hbb.1 ?_
          refine Or.inr (Or.inl ?_)
          intro x hx y hy
          rw [Hbb.2 hbe x hx, Hbb.2 hbe y hy]
        have h2 := ihm location name
          (make_chunk b.items (name ++ '-' :: b.key) sc) remaining
          hWrest Hbrest Hrem
        have h3 := deltaOK_trans h1 h2
        refine deltaOK_perm h3 ?_
        simp [List.append_assoc]
      · -- next location: recursive folder split of this bucket
        rcases hq : folderShortcut b.items nl with ⟨fn, list⟩ | ⟨m', loc'⟩
        · rw [bucketPhase_cons_false_some_inl hh hbe hq]
          obtain ⟨hperm, hne, hid⟩ := folderShortcut_inl_spec _ _ _ _ hq
          have h1 : deltaOK sc (make_chunk list (name ++ '-' :: fn) sc)
              b.items := by
            refine deltaOK_perm (deltaOK_make_chunk hne ?_) hperm
            refine Or.inr (Or.inl ?_)
            intro x hx y hy
            rw [hid x hx, hid y hy]
          have h2 := ihm location name
            (make_chunk list (name ++ '-' :: fn) sc) remaining
            hWrest Hbrest Hrem
          have h3 := deltaOK_trans h1 h2
          refine deltaOK_perm h3 ?_
          simp [List.append_assoc]
        · rw [bucketPhase_cons_false_some_inr hh hbe hq]
          obtain ⟨hperm, hwf⟩ := folderShortcut_inr_spec _ _ _ _ hq
          have hmwlt : mapWeight m' < W := by
            have h4 := folderShortcut_inr_weight _ _ _ _ hq
            have h5 : itemsMeasure b.items nl < bucketWeight b := by
              simp [bucketWeight, hbe]
            rw [mapWeight_cons] at hW
            omega
          have h1 : deltaOK sc (bucketPhase m' loc' name sc []) b.items := by
            have h6 := ihW (mapWeight m') hmwlt m' loc' name sc []
              (le_refl _) (fun b' hb' => ⟨(hwf b' hb').1, (hwf b' hb').2.1⟩)
              (by simp)
            refine deltaOK_perm h6 ?_
            simpa using hperm
          have h2 := ihm location name (bucketPhase m' loc' name sc [])
            remaining hWrest Hbrest Hrem
          have h3 := deltaOK_trans h1 h2
          refine deltaOK_perm h3 ?_
          simp [List.append_assoc]
    · -- Perfect: emit this bucket as a chunk
      subst hb1
      rw [hsc, ho] at hh
      rw [bucketPhase_cons_true hh]
      simp only [Option.getD_some]
      have hP := (chunk_size_Perfect_iff b.items).mp hcs
      have h1 : deltaOK sc (make_chunk b.items (name ++ '-' :: b.key) sc)
          b.items :=
        deltaOK_make_chunk (ne_nil_of_small_lt_sizeSum hP.1)
          (Or.inl hP.2)
      have h2 := ihm location name
        (make_chunk b.items (name ++ '-' :: b.key) sc) remaining
        hWrest Hbrest Hrem
      have h3 := deltaOK_trans h1 h2
      refine deltaOK_perm h3 ?_
      simp [List.append_assoc]
    · -- Small: move the bucket's items into the accumulator
      subst hb1
      rw [hsc, ho] at hh
      rw [bucketPhase_cons_true hh]
      simp only [Option.getD_some]
      have hS := (chunk_size_Small_iff b.items).mp hcs
      have Hrem' : ∀ x ∈ remaining ++ b.items, x.size ≤ SMALL_CHUNK := by
        intro x hx
        rcases List.mem_append.mp hx with hx | hx
        · exact Hrem x hx
        · exact le_trans (member_size_le_sizeSum hx) hS
      have h2 := ihm location name sc (remaining ++ b.items)
        hWrest Hbrest Hrem'
      refine deltaOK_perm h2 ?_
      have hx : (rest.flatMap KBucket.items ++ (remaining ++ b.items)).Perm
          (b.items ++ (rest.flatMap KBucket.items ++ remaining)) := by
        rw [← List.append_assoc]
        exact List.perm_append_comm
      simpa [List.flatMap_cons, List.append_assoc] using hx

/-- The folder splitter appends chunks that repartition exactly its
input items, respecting the side-refs discipline and the per-chunk
size/shape property. -/
theorem folder_split_delta (chunk_items : List ChunkItemWithInfo)
    (location : Nat) (name : Str) (sc : SplitContext) :
    deltaOK sc (folder_split chunk_items location name sc) chunk_items := by
  rcases hq : folderShortcut chunk_items location with ⟨fn, list⟩ | ⟨m, loc'⟩
  · obtain ⟨hperm, hne, hid⟩ := folderShortcut_inl_spec _ _ _ _ hq
    rw [folder_split, hq]
    refine deltaOK_perm (deltaOK_make_chunk hne ?_) hperm
    refine Or.inr (Or.inl ?_)
    intro x hx y hy
    rw [hid x hx, hid y hy]
  · obtain ⟨hperm, hwf⟩ := folderShortcut_inr_spec _ _ _ _ hq
    rw [folder_split, hq]
    have h1 := bucketPhase_delta (mapWeight m) m loc' name sc []
      (le_refl _) (fun b' hb' => ⟨(hwf b' hb').1, (hwf b' hb').2.1⟩) (by simp)
    refine deltaOK_perm h1 ?_
    simpa using hperm

/-- The per-package loop appends chunks and leaves a remaining
accumulator which together repartition exactly the package buckets'
items plus the incoming accumulator. -/
theorem pkgLoop_delta :
    ∀ (m : List (KBucket Str Unit ChunkItemWithInfo)) (name : Str)
      (sc : SplitContext) (rem : List ChunkItemWithInfo),
      ∃ xs, deltaOK sc (pkgLoop m name sc rem).1 xs ∧
        (xs ++ (pkgLoop m name sc rem).2).Perm
          (m.flatMap KBucket.items ++ rem) := by
  intro m
  induction m with
  | nil =>
    intro name sc rem
    exact ⟨[], by simpa [pkgLoop] using deltaOK_refl sc, by simp [pkgLoop]⟩
  | cons b rest ih =>
    intro name sc rem
    rcases hh : handle_split_group b.items (name ++ '-' :: b.key) sc
      (some rem) with ⟨bb, sc2, rem2⟩
    rcases handle_some_inv hh with ⟨hb1, hcs, hsc, ho⟩ |
      ⟨hb1, hcs, hsc, ho⟩ | ⟨hb1, hcs, hsc, ho⟩
    · -- Large: folder split of this package group
      subst hb1
      rw [hsc] at hh
      obtain ⟨xs, hd, hp⟩ := ih name (folder_split b.items 0
        (name ++ '-' :: b.key) sc) rem
      refine ⟨b.items ++ xs, ?_, ?_⟩
      · rw [pkgLoop, hh]
        exact deltaOK_trans (folder_split_delta _ _ _ _) hd
      · rw [pkgLoop, hh]
        rw [List.append_assoc]
        refine (List.Perm.append_left b.items hp).trans ?_
        simp [List.flatMap_cons, List.append_assoc]
    · -- Perfect: emit this package group
      subst hb1
      rw [hsc, ho] at hh
      obtain ⟨xs, hd, hp⟩ := ih name
        (make_chunk b.items (name ++ '-' :: b.key) sc) rem
      have hP := (chunk_size_Perfect_iff b.items).mp hcs
      refine ⟨b.items ++ xs, ?_, ?_⟩
      · rw [pkgLoop, hh]
        simp only [Option.getD_some]
        exact deltaOK_trans
          (deltaOK_make_chunk (ne_nil_of_small_lt_sizeSum hP.1)
            (Or.inl hP.2)) hd
      · rw [pkgLoop, hh]
        simp only [Option.getD_some]
        rw [List.append_assoc]
        refine (List.Perm.append_left b.items hp).trans ?_
        simp [List.flatMap_cons, List.append_assoc]
    · -- Small: move this package group into the accumulator
      subst hb1
      rw [hsc, ho] at hh
      obtain ⟨xs, hd, hp⟩ := ih name sc (rem ++ b.items)
      refine ⟨xs, ?_, ?_⟩
      · rw [pkgLoop, hh]
        simpa only [Option.getD_some] using hd
      · rw [pkgLoop, hh]
        simp only [Option.getD_some]
        refine hp.trans ?_
        have hx : (rest.flatMap KBucket.items ++ (rem ++ b.items)).Perm
            (b.items ++ (rest.flatMap KBucket.items ++ rem)) := by
          rw [← List.append_assoc]
          exact List.perm_append_comm
        simpa [List.flatMap_cons, List.append_assoc] using hx

/-- The package splitter appends chunks that repartition exactly its
input items. -/
theorem package_name_split_delta (chunk_items : List ChunkItemWithInfo)
    (name : Str) (sc : SplitContext) :
    deltaOK sc (package_name_split chunk_items name sc) chunk_items := by
  obtain ⟨xs, hd, hp⟩ := pkgLoop_delta
    (groupKB (fun it => (package_name it.ident, ())) chunk_items) name sc []
  have hflat : ((groupKB (fun it => (package_name it.ident, ()))
      chunk_items).flatMap KBucket.items).Perm chunk_items :=
    groupKB_flatMap_perm _ _
  rcases hpl : pkgLoop (groupKB (fun it => (package_name it.ident, ()))
    chunk_items) name sc [] with ⟨sc1, rem1⟩
  rw [hpl] at hd hp
  simp only at hd hp
  have hxs : (xs ++ rem1).Perm chunk_items := by
    refine hp.trans ?_
    simpa using hflat
  rcases rem1 with _ | ⟨r0, rs⟩
  · have heval : package_name_split chunk_items name sc = sc1 := by
      rw [package_name_split, hpl]
    rw [heval]
    refine deltaOK_perm hd ?_
    simpa using hxs
  · rcases hh : handle_split_group (r0 :: rs) name sc1 none with ⟨bb, sc2, o⟩
    rcases handle_none_inv hh with ⟨hb1, hcs, hsc, ho⟩ | ⟨hb1, hcs, hsc, ho⟩
    · subst hb1
      rw [hsc] at hh
      have heval : package_name_split chunk_items name sc =
          folder_split (r0 :: rs) 0 name sc1 := by
        rw [package_name_split, hpl]
        simp only [hh]
      rw [heval]
      exact deltaOK_perm (deltaOK_trans hd (folder_split_delta _ _ _ _)) hxs
    · subst hb1
      rw [hsc] at hh
      have heval : package_name_split chunk_items name sc =
          make_chunk (r0 :: rs) name sc1 := by
        rw [package_name_split, hpl]
        simp only [hh]
      rw [heval]
      have hD : Dmembers (r0 :: rs) := by
        left
        by_contra hge
        exact hcs ((chunk_size_Large_iff _).mpr (by omega))
      exact deltaOK_perm
        (deltaOK_trans hd (deltaOK_make_chunk (by simp) hD)) hxs

/-- The app/vendor splitter appends chunks that repartition exactly its
input items. -/
theorem app_vendors_split_delta (chunk_items : List ChunkItemWithInfo)
    (name : Str) (sc : SplitContext) :
    deltaOK sc (app_vendors_split chunk_items name sc) chunk_items := by
  have hav : (chunk_items.filter (fun it => is_app_code it.ident) ++
      chunk_items.filter (fun it => !is_app_code it.ident)).Perm chunk_items :=
    List.filter_append_perm _ _
  set app := chunk_items.filter (fun it => is_app_code it.ident) with happ
  set ven := chunk_items.filter (fun it => !is_app_code it.ident) with hven
  rcases hha : handle_split_group app (name ++ "-app".data) sc (some []) with
    ⟨ba, sc1, rem1⟩
  -- characterize the app phase
  have hstep1 : ∃ rems1, rem1 = some rems1 ∧
      ∃ ys1, deltaOK sc
        (if ba then sc1 else folder_split app 0 (name ++ "-app".data) sc1)
        ys1 ∧ (ys1 ++ rems1).Perm app := by
    rcases handle_some_inv hha with ⟨hb1, hcs, hsc, ho⟩ |
      ⟨hb1, hcs, hsc, ho⟩ | ⟨hb1, hcs, hsc, ho⟩
    · subst hb1
      refine ⟨[], ho, app, ?_, by simp⟩
      rw [hsc]
      simpa using folder_split_delta app 0 (name ++ "-app".data) sc
    · subst hb1
      have hP := (chunk_size_Perfect_iff app).mp hcs
      refine ⟨[], ho, app, ?_, by simp⟩
      rw [hsc]
      simpa using deltaOK_make_chunk (ne_nil_of_small_lt_sizeSum hP.1)
        (Or.inl hP.2)
    · subst hb1
      refine ⟨app, by simpa using ho, [], ?_, by simp⟩
      rw [hsc]
      simpa using deltaOK_refl sc
  obtain ⟨rems1, hrem1, ys1, hd1, hp1⟩ := hstep1
  set sc2 := if ba then sc1 else folder_split app 0 (name ++ "-app".data) sc1
    with hsc2
  -- characterize the vendor phase
  rcases hhv : handle_split_group ven (name ++ "-vendors".data) sc2
    (some rems1) with ⟨bv, sc3, rem2⟩
  have hstep2 : ∃ rems2, rem2 = some rems2 ∧
      ∃ ys2, deltaOK sc2
        (if bv then sc3
          else package_name_split ven (name ++ "-vendors".data) sc3) ys2 ∧
        (ys2 ++ rems2).Perm (rems1 ++ ven) := by
    rcases handle_some_inv hhv with ⟨hb1, hcs, hsc, ho⟩ |
      ⟨hb1, hcs, hsc, ho⟩ | ⟨hb1, hcs, hsc, ho⟩
    · subst hb1
      refine ⟨rems1, ho, ven, ?_, List.perm_append_comm⟩
      rw [hsc]
      simpa using package_name_split_delta ven (name ++ "-vendors".data) sc2
    · subst hb1
      have hP := (chunk_size_Perfect_iff ven).mp hcs
      refine ⟨rems1, ho, ven, ?_, List.perm_append_comm⟩
      rw [hsc]
      simpa using deltaOK_make_chunk (ne_nil_of_small_lt_sizeSum hP.1)
        (Or.inl hP.2)
    · subst hb1
      refine ⟨rems1 ++ ven, ho, [], ?_, by simp⟩
      rw [hsc]
      simpa using deltaOK_refl sc2
  obtain ⟨rems2, hrem2, ys2, hd2, hp2⟩ := hstep2
  set sc4 := if bv then sc3
    else package_name_split ven (name ++ "-vendors".data) sc3 with hsc4
  -- overall accounting before the flush
  have hd12 : deltaOK sc sc4 (ys1 ++ ys2) := deltaOK_trans hd1 hd2
  have hacc : ((ys1 ++ ys2) ++ rems2).Perm chunk_items := by
    rw [List.append_assoc]
    refine (List.Perm.append_left ys1 hp2).trans ?_
    rw [← List.append_assoc]
    exact ((List.Perm.append_right ven hp1).trans hav)
  -- evaluate the definition
  have heval : app_vendors_split chunk_items name sc =
      (match rems2 with
       | [] => sc4
       | r0 :: rs =>
          match handle_split_group (r0 :: rs) name sc4 none with
          | (true, sc5, _) => sc5
          | (false, sc5, _) => package_name_split (r0 :: rs) name sc5) := by
    rw [app_vendors_split]
    rw [← happ, ← hven, hha]
    simp only [hrem1, Option.getD_some]
    rw [hhv]
    simp only [hrem2, Option.getD_some]
    cases rems2 <;> rfl
  rcases rems2 with _ | ⟨r0, rs⟩
  · rw [heval]
    refine deltaOK_perm hd12 ?_
    simpa using hacc
  · rcases hh : handle_split_group (r0 :: rs) name sc4 none with ⟨bb, sc5, o⟩
    rcases handle_none_inv hh with ⟨hb1, hcs, hsc, ho⟩ | ⟨hb1, hcs, hsc, ho⟩
    · subst hb1
      rw [hsc] at hh
      rw [heval]
      simp only [hh]
      exact deltaOK_perm
        (deltaOK_trans hd12 (package_name_split_delta _ _ _)) hacc
    · subst hb1
      rw [hsc] at hh
      rw [heval]
      simp only [hh]
      have hD : Dmembers (r0 :: rs) := by
        left
        by_contra hge
        exact hcs ((chunk_size_Large_iff _).mpr (by omega))
      exact deltaOK_perm
        (deltaOK_trans hd12 (deltaOK_make_chunk (by simp) hD)) hacc

/-- The per-type loop: its appended chunks repartition exactly the
materialized tuples of all type groups, and the side-refs slot is
threaded across the groups so that only the very first appended chunk
can carry the incoming handle. -/
theorem tyLoop_delta :
    ∀ (env : ChunkEnv) (m : List (KBucket Nat Unit (Nat × Option Nat)))
      (prefixKey : Str) (chunks : List Chunk) (sideRefs : SideRefs),
      ∃ ds, (tyLoop env m prefixKey chunks sideRefs).1 = chunks ++ ds ∧
        (ds.flatMap Chunk.members).Perm
          (m.flatMap (fun b => tyInfos env b.key b.items)) ∧
        chainOK ds sideRefs SideRefs.empty
          (tyLoop env m prefixKey chunks sideRefs).2 ∧
        ∀ c ∈ ds, c.members ≠ [] ∧ Dmembers c.members := by
  intro env m
  induction m with
  | nil =>
    intro prefixKey chunks sideRefs
    refine ⟨[], by simp [tyLoop], by simp [tyLoop], ?_, by simp⟩
    simp only [tyLoop]
    rfl
  | cons b rest ih =>
    intro prefixKey chunks sideRefs
    have hav := app_vendors_split_delta (tyInfos env b.key b.items)
      (prefixKey ++ env.tyName b.key)
      { ty := b.key, chunks := chunks, sideRefs := sideRefs,
        emptySideRefs := SideRefs.empty }
    obtain ⟨hemp, ds1, hc1, hp1, hch1, hm1⟩ := hav
    set sc' := app_vendors_split (tyInfos env b.key b.items)
      (prefixKey ++ env.tyName b.key)
      { ty := b.key, chunks := chunks, sideRefs := sideRefs,
        emptySideRefs := SideRefs.empty } with hsc'
    obtain ⟨ds2, hc2, hp2, hch2, hm2⟩ := ih prefixKey sc'.chunks sc'.sideRefs
    have heval : tyLoop env (b :: rest) prefixKey chunks sideRefs =
        tyLoop env rest prefixKey sc'.chunks sc'.sideRefs := by
      rw [tyLoop]
    refine ⟨ds1 ++ ds2, ?_, ?_, ?_, ?_⟩
    · rw [heval, hc2, hc1]
      simp [List.append_assoc]
    · rw [List.flatMap_append, List.flatMap_cons]
      exact List.Perm.append hp1 hp2
    · rw [heval]
      exact chainOK_append hch1 hch2
    · intro c hc
      rcases List.mem_append.mp hc with hc | hc
      · exact hm1 c hc
      · exact hm2 c hc

/-- Make_chunks level master fact: the output chunks repartition the
materialized tuples, the first chunk carries the caller's side-refs
handle and all later chunks the empty handle, and every chunk is
non-empty and satisfies the size/shape property. -/
theorem make_chunks_master (env : ChunkEnv)
    (chunk_items : List (Nat × Option Nat)) (prefixKey : Str)
    (referenced_output_assets : SideRefs) :
    ∃ s', ((make_chunks env chunk_items prefixKey
        referenced_output_assets).flatMap Chunk.members).Perm
        ((groupKB (fun p : Nat × Option Nat => (env.tyOf p.1, ()))
          chunk_items).flatMap (fun b => tyInfos env b.key b.items)) ∧
      chainOK (make_chunks env chunk_items prefixKey
        referenced_output_assets) referenced_output_assets SideRefs.empty s' ∧
      ∀ c ∈ make_chunks env chunk_items prefixKey referenced_output_assets,
        c.members ≠ [] ∧ Dmembers c.members := by
  obtain ⟨ds, hc, hp, hch, hm⟩ := tyLoop_delta env
    (groupKB (fun p : Nat × Option Nat => (env.tyOf p.1, ())) chunk_items)
    prefixKey [] referenced_output_assets
  have hmk : make_chunks env chunk_items prefixKey referenced_output_assets =
      ds := by
    rw [make_chunks]
    rw [hc]
    simp
  refine ⟨(tyLoop env (groupKB (fun p : Nat × Option Nat =>
      (env.tyOf p.1, ())) chunk_items) prefixKey []
      referenced_output_assets).2, ?_, ?_, ?_⟩
  · rw [hmk]; exact hp
  · rw [hmk]; exact hch
  · rw [hmk]; exact hm

/-! Relating the accumulator scan of `package_name` to the match list
of the specification. -/

theorem getLast?_cons_elim {α : Type} (M : α) (L : List α) :
    (M :: L).getLast? =
      match L.getLast? with
      | some m => some m
      | none => some M := by
  cases L with
  | nil => simp
  | cons a t =>
    rw [List.getLast?_cons_cons]
    rcases h : (a :: t).getLast? with _ | m
    · rw [List.getLast?_eq_none_iff] at h
      simp at h
    · rfl

theorem pkgFindLast_eq_getLast :
    ∀ (s : Str) (acc : Option Str),
      pkgFindLast s acc =
        match (pkgMatchList s).getLast? with
        | some m => some m
        | none => acc := by
  intro s acc
  induction s, acc using pkgFindLast.induct with
  | case1 acc =>
    rw [pkgFindLast, pkgMatchList]
    simp
  | case2 acc c rest hpre r hlen ih =>
    rw [pkgFindLast, if_pos hpre]
    rw [pkgMatchList, if_pos hpre]
    simp only [hlen]
    rw [ih, getLast?_cons_elim]
    rcases hlast : (pkgMatchList (((c :: rest).drop nmLen).drop r)).getLast?
      with _ | m <;> simp [hlast]
  | case3 acc c rest hpre hlen ih =>
    rw [pkgFindLast, if_pos hpre]
    rw [pkgMatchList, if_pos hpre]
    simp only [hlen]
    exact ih
  | case4 acc c rest hpre ih =>
    rw [pkgFindLast, if_neg hpre]
    rw [pkgMatchList, if_neg hpre]
    exact ih

/-- Reading one position of a chunk sequence that respects the
side-refs transfer discipline. -/
theorem chainOK_getD {ds : List Chunk} {s e s' : SideRefs}
    (h : chainOK ds s e s') {i : Nat} (hi : i < ds.length) :
    (ds.getD i default).sideRefs = if i = 0 then s else e := by
  cases ds with
  | nil => simp at hi
  | cons c t =>
    obtain ⟨hc, ht, _⟩ := h
    cases i with
    | zero => simpa using hc
    | succ n =>
      have hn : n < t.length := by simpa using hi
      have hmem : t.getD n default ∈ t := by
        rw [List.getD_eq_getElem _ _ hn]
        exact List.getElem_mem hn
      simpa using ht _ hmem

/-! Concrete instances used by witnesses and counterexamples. -/

/-- One-kind environment: every item has kind 0, size 100000 (a
Perfect-band size) and app-code ident "a". -/
def wEnv : ChunkEnv :=
  ⟨fun _ => 0, fun _ => "T".data, fun _ _ _ => 100000, fun _ => "a".data⟩

/-- Environment in which the item's payload is its kind, to exercise
several kind groups in one invocation. -/
def wEnv2 : ChunkEnv :=
  ⟨fun p => p, fun t => if t = 0 then "T".data else "U".data,
   fun _ _ _ => 100000, fun _ => "a".data⟩

/-- Idents for the C3 counterexample: ten distinct one-letter top-level
folders. -/
def cxIdent : Nat → Str
  | 0 => "a/".data
  | 1 => "b/".data
  | 2 => "c/".data
  | 3 => "d/".data
  | 4 => "e/".data
  | 5 => "f/".data
  | 6 => "g/".data
  | 7 => "h/".data
  | 8 => "i/".data
  | _ => "j/".data

/-- Environment for the C3 counterexample: one kind, every item of size
30000 (exactly the Small threshold). -/
def cxEnv : ChunkEnv :=
  ⟨fun _ => 0, fun _ => "T".data, fun _ _ _ => 30000, cxIdent⟩

/-- The ten input pairs of the C3 counterexample. -/
def cxItems : List (Nat × Option Nat) :=
  [(0, none), (1, none), (2, none), (3, none), (4, none),
   (5, none), (6, none), (7, none), (8, none), (9, none)]

/-- The materialized tuple of one C3 counterexample item. -/
def cxInfo (p : Nat) : ChunkItemWithInfo := ⟨p, none, 30000, cxIdent p⟩

/-- The folder bucket of one C3 counterexample item at location 0. -/
def cxB (p : Nat) : KBucket Str (Option Nat) ChunkItemWithInfo :=
  ⟨cxIdent p, some 2, [cxInfo p]⟩

/-- The app-side name under which the C3 counterexample reaches the
folder splitter. -/
def cxName : Str := "T".data ++ "-app".data

/-- The split context in which the C3 counterexample reaches the folder
splitter. -/
def cxSC : SplitContext := ⟨0, [], SideRefs.handle 3, SideRefs.empty⟩

/-- The ten materialized tuples of the C3 counterexample. -/
def cxInfos : List ChunkItemWithInfo :=
  [cxInfo 0, cxInfo 1, cxInfo 2, cxInfo 3, cxInfo 4,
   cxInfo 5, cxInfo 6, cxInfo 7, cxInfo 8, cxInfo 9]

/-- Prefix of a string through its final '/', if it has one. -/
def identPrefixThroughFinalSlash (s : Str) : Option Str :=
  match findChar '/' s.reverse with
  | some i => some (s.take (s.length - i))
  | none => none

/-- The exception clause of claim C3, as the claim words it: the units
form a single folder branch that cannot be subdivided further, that is,
all units share the full ident prefix through the final '/', or no
further '/' exists. -/
def singleFolderBranchB (l : List ChunkItemWithInfo) : Bool :=
  (match l with
   | [] => true
   | x :: xs =>
      match identPrefixThroughFinalSlash x.ident with
      | some p => xs.all (fun y => identPrefixThroughFinalSlash y.ident == some p)
      | none => false)
  || l.all (fun x => findChar '/' x.ident == none)

/-- Auxiliary projection fact: mapping the (payload, async info)
projection over materialized tuples recovers the input pairs. -/
theorem tyInfos_pairs (env : ChunkEnv) (ty : Nat)
    (l : List (Nat × Option Nat)) :
    (tyInfos env ty l).map (fun it => (it.chunkItem, it.asyncInfo)) = l := by
  induction l with
  | nil => rfl
  | cons p t ih =>
    simp only [tyInfos, List.map_cons] at ih ⊢
    rw [ih]

/-! The claims. -/

/-- C4: handle_split_group implements the decision table: a Large group
is left in place with result false; a Perfect group is emitted as one
chunk under the current key with result true; a Small group is moved
into the remaining accumulator when one is present (emitting nothing),
and emitted anyway when none is, with result true in both cases. -/
theorem c4_handle_split_group_table (chunk_items : List ChunkItemWithInfo)
    (key : Str) (split_context : SplitContext)
    (remaining : Option (List ChunkItemWithInfo)) :
    handle_split_group chunk_items key split_context remaining =
      match chunk_size chunk_items, remaining with
      | ChunkSize.Large, rem => (false, split_context, rem)
      | ChunkSize.Perfect, rem =>
          (true,
           { split_context with
             chunks := split_context.chunks ++
               [{ ty := split_context.ty, members := chunk_items,
                  sideRefs := split_context.sideRefs, key := key }],
             sideRefs := split_context.emptySideRefs }, rem)
      | ChunkSize.Small, some rem =>
          (true, split_context, some (rem ++ chunk_items))
      | ChunkSize.Small, none =>
          (true,
           { split_context with
             chunks := split_context.chunks ++
               [{ ty := split_context.ty, members := chunk_items,
                  sideRefs := split_context.sideRefs, key := key }],
             sideRefs := split_context.emptySideRefs }, none) := by
  rcases h : chunk_size chunk_items with _ | _ | _ <;>
    rcases remaining with _ | rem <;>
      simp [handle_split_group, make_chunk, h]

/-- C5: the size classifier computes the exact integer sum of the
group's item sizes and classifies it as Large when at least 300000,
Perfect when strictly between 30000 and 300000, and Small when at most
30000. -/
theorem c5_chunk_size_classifier (chunk_items : List ChunkItemWithInfo) :
    chunk_size chunk_items =
      if 300000 ≤ sizeSum chunk_items then ChunkSize.Large
      else if 30000 < sizeSum chunk_items then ChunkSize.Perfect
      else ChunkSize.Small := by
  rw [chunk_size_eq_spec]
  rfl

/-- C6: make_chunks is deterministic: two runs on equal inputs (same
environment of external collaborators, same item list, same key prefix,
same side-refs handle) produce identical chunk lists. -/
theorem c6_make_chunks_deterministic (env1 env2 : ChunkEnv)
    (items1 items2 : List (Nat × Option Nat)) (p1 p2 : Str)
    (s1 s2 : SideRefs) (henv : env1 = env2) (hitems : items1 = items2)
    (hp : p1 = p2) (hs : s1 = s2) :
    make_chunks env1 items1 p1 s1 = make_chunks env2 items2 p2 s2 := by
  rw [henv, hitems, hp, hs]

/-- Witness for C6 at a concrete input. -/
theorem c6_make_chunks_deterministic_witness :
    make_chunks wEnv [(0, none)] [] (SideRefs.handle 7) =
      make_chunks wEnv [(0, none)] [] (SideRefs.handle 7) :=
  c6_make_chunks_deterministic wEnv wEnv [(0, none)] [(0, none)] [] []
    (SideRefs.handle 7) (SideRefs.handle 7) rfl rfl rfl rfl

/-- C7: folder_split terminates on every input: folder_name only ever
returns a strictly larger location bounded by the ident's length, and
every bucket of the folder grouping that carries a next location has a
strictly smaller termination measure at that location than the whole
group at the current location, so both the shortcut loop and the
recursive calls are well-founded. -/
theorem c7_folder_split_termination :
    (∀ (ident : Str) (location : Nat) (fn : Str) (nl : Nat),
      folder_name ident location = (fn, some nl) →
      location < nl ∧ nl ≤ ident.length) ∧
    (∀ (chunk_items : List ChunkItemWithInfo) (location : Nat)
      (b : KBucket Str (Option Nat) ChunkItemWithInfo) (nl : Nat),
      b ∈ buildFolderMap chunk_items location → b.extra = some nl →
      itemsMeasure b.items nl < itemsMeasure chunk_items location) := by
  constructor
  · intro ident location fn nl h
    exact ⟨(folder_name_some h).1, (folder_name_some h).2.1⟩
  · intro chunk_items location b nl hb hnl
    exact folderMap_measure_lt hb hnl

/-- Witness for C7 at a concrete ident and folder grouping. -/
theorem c7_folder_split_termination_witness :
    (folder_name "a/b".data 0 = ("a/".data, some 2) ∧ 0 < 2 ∧
      2 ≤ ("a/b".data : Str).length) ∧
    ((⟨"a/".data, some 2, [⟨0, none, 1, "a/b".data⟩]⟩ :
        KBucket Str (Option Nat) ChunkItemWithInfo) ∈
      buildFolderMap [⟨0, none, 1, "a/b".data⟩] 0 ∧
      itemsMeasure [⟨0, none, 1, "a/b".data⟩] 2 <
        itemsMeasure [⟨0, none, 1, "a/b".data⟩] 0) := by
  refine ⟨⟨by decide, c7_folder_split_termination.1 "a/b".data 0 "a/".data 2
    (by decide)⟩, ⟨by decide, ?_⟩⟩
  have h := c7_folder_split_termination.2 [⟨0, none, 1, "a/b".data⟩] 0
    ⟨"a/".data, some 2, [⟨0, none, 1, "a/b".data⟩]⟩ 2 (by decide) rfl
  simpa using h

/-- C8: package_name returns the package segment of the last match of
the pattern "/node_modules/((?:@[^/]+/)?[^/]+)" in the ident, stripped
of the leading "/node_modules/", and the empty string when there is no
match; this equals the specification-side definition that collects the
match list and takes its last element. -/
theorem c8_package_name_last_match (ident : Str) :
    package_name ident = package_name_spec ident := by
  unfold package_name package_name_spec
  rw [pkgFindLast_eq_getLast]
  rcases h : (pkgMatchList ident).getLast? with _ | m <;> simp

/-- C9: every bucket of the folder grouping that causes a recursive
folder_split call (it has a next location nl) consists of units whose
idents all extend the bucket key, which is their shared prefix of
length nl, so the recursive call receives units agreeing on their first
nl characters with nl a valid index into each ident; consequently the
flush key formed from the shared prefix of the first remaining unit is
independent of which remaining unit is chosen. -/
theorem c9_folder_location_invariant :
    (∀ (chunk_items : List ChunkItemWithInfo) (location : Nat)
      (b : KBucket Str (Option Nat) ChunkItemWithInfo) (nl : Nat),
      b ∈ buildFolderMap chunk_items location → b.extra = some nl →
      ∀ x ∈ b.items, nl ≤ x.ident.length ∧ x.ident.take nl = b.key) ∧
    (∀ (remaining : List ChunkItemWithInfo) (location : Nat) (name : Str)
      (x y : ChunkItemWithInfo),
      (∀ u ∈ remaining, ∀ v ∈ remaining,
        u.ident.take location = v.ident.take location) →
      x ∈ remaining → y ∈ remaining →
      name ++ '-' :: x.ident.take location =
        name ++ '-' :: y.ident.take location) := by
  constructor
  · intro chunk_items location b nl hb hnl
    exact folderBucket_some_uniform hb hnl
  · intro remaining location name x y hagree hx hy
    rw [hagree x hx y hy]

/-- Witness for C9 at a concrete grouping and accumulator. -/
theorem c9_folder_location_invariant_witness :
    (2 ≤ ("a/b".data : Str).length ∧
      ("a/b".data : Str).take 2 = "a/".data) ∧
    (("x".data : Str) ++ '-' ::
        (("a/b".data : Str).take 1) =
      "x".data ++ '-' :: (("a/c".data : Str).take 1)) := by
  constructor
  · have h := c9_folder_location_invariant.1 [⟨0, none, 1, "a/b".data⟩] 0
      ⟨"a/".data, some 2, [⟨0, none, 1, "a/b".data⟩]⟩ 2 (by decide) rfl
      ⟨0, none, 1, "a/b".data⟩ (by decide)
    simpa using h
  · exact c9_folder_location_invariant.2
      [⟨0, none, 1, "a/b".data⟩, ⟨1, none, 1, "a/c".data⟩] 1 "x".data
      ⟨0, none, 1, "a/b".data⟩ ⟨1, none, 1, "a/c".data⟩
      (by decide) (by decide) (by decide)

/-- C1: every input unit appears in exactly one output chunk: the
multiset of (payload, async_info) members over all chunks emitted by
make_chunks equals the multiset of input pairs. -/
theorem c1_every_item_in_exactly_one_chunk (env : ChunkEnv)
    (chunk_items : List (Nat × Option Nat)) (prefixKey : Str)
    (referenced_output_assets : SideRefs) :
    ((make_chunks env chunk_items prefixKey
      referenced_output_assets).flatMap Chunk.pairs).Perm chunk_items := by
  obtain ⟨s', hp, hch, hm⟩ := make_chunks_master env chunk_items prefixKey
    referenced_output_assets
  have h2 := hp.map (fun it => (it.chunkItem, it.asyncInfo))
  rw [List.map_flatMap, List.map_flatMap] at h2
  simp only [tyInfos_pairs] at h2
  have h3 : ((groupKB (fun p : Nat × Option Nat => (env.tyOf p.1, ()))
      chunk_items).flatMap KBucket.items).Perm chunk_items :=
    groupKB_flatMap_perm _ _
  exact h2.trans h3

/-- C2 counterexample: on the empty invocation no chunk is emitted, so
the caller's side-refs handle is attached to zero chunks, not exactly
one. -/
theorem c2_counterexample :
    (make_chunks wEnv [] [] (SideRefs.handle 5)).countP
      (fun c => c.sideRefs == SideRefs.handle 5) ≠ 1 := by
  decide

/-- C2 amended: in every invocation of make_chunks the caller's
side_refs handle is attached to at most one emitted chunk, namely the
first chunk when any chunk is emitted at all; every other emitted chunk
receives the empty side-refs handle. -/
theorem c2_amended_side_refs (env : ChunkEnv)
    (chunk_items : List (Nat × Option Nat)) (prefixKey : Str)
    (referenced_output_assets : SideRefs) (i : Nat)
    (hi : i < (make_chunks env chunk_items prefixKey
      referenced_output_assets).length) :
    ((make_chunks env chunk_items prefixKey
        referenced_output_assets).getD i default).sideRefs =
      if i = 0 then referenced_output_assets else SideRefs.empty := by
  obtain ⟨s', hp, hch, hm⟩ := make_chunks_master env chunk_items prefixKey
    referenced_output_assets
  exact chainOK_getD hch hi

/-- Witness for the amended C2: a two-kind invocation emits two chunks;
the first carries the caller's handle, the second the empty handle. -/
theorem c2_amended_side_refs_witness :
    (0 < (make_chunks wEnv2 [(0, none), (1, some 4)] []
        (SideRefs.handle 7)).length ∧
      ((make_chunks wEnv2 [(0, none), (1, some 4)] []
        (SideRefs.handle 7)).getD 0 default).sideRefs = SideRefs.handle 7) ∧
    (1 < (make_chunks wEnv2 [(0, none), (1, some 4)] []
        (SideRefs.handle 7)).length ∧
      ((make_chunks wEnv2 [(0, none), (1, some 4)] []
        (SideRefs.handle 7)).getD 1 default).sideRefs = SideRefs.empty) := by
  refine ⟨⟨by decide, ?_⟩, ⟨by decide, ?_⟩⟩
  · have h := c2_amended_side_refs wEnv2 [(0, none), (1, some 4)] []
      (SideRefs.handle 7) 0 (by decide)
    simpa using h
  · have h := c2_amended_side_refs wEnv2 [(0, none), (1, some 4)] []
      (SideRefs.handle 7) 1 (by decide)
    simpa using h

/-- Evaluation of the bucket phase on the C3 counterexample: all ten
one-item folder buckets are Small and collect into the remaining
accumulator, whose flush is Large (total 300000) and is emitted
anyway. -/
theorem cx_bucketPhase :
    bucketPhase [cxB 0, cxB 1, cxB 2, cxB 3, cxB 4, cxB 5, cxB 6, cxB 7,
      cxB 8, cxB 9] 0 cxName cxSC [] =
    make_chunk cxInfos (cxName ++ ['-']) cxSC := by
  rw [bucketPhase.eq_def]
  show bucketPhase [cxB 1, cxB 2, cxB 3, cxB 4, cxB 5, cxB 6, cxB 7, cxB 8,
    cxB 9] 0 cxName cxSC [cxInfo 0] = _
  rw [bucketPhase.eq_def]
  show bucketPhase [cxB 2, cxB 3, cxB 4, cxB 5, cxB 6, cxB 7, cxB 8, cxB 9]
    0 cxName cxSC [cxInfo 0, cxInfo 1] = _
  rw [bucketPhase.eq_def]
  show bucketPhase [cxB 3, cxB 4, cxB 5, cxB 6, cxB 7, cxB 8, cxB 9]
    0 cxName cxSC [cxInfo 0, cxInfo 1, cxInfo 2] = _
  rw [bucketPhase.eq_def]
  show bucketPhase [cxB 4, cxB 5, cxB 6, cxB 7, cxB 8, cxB 9]
    0 cxName cxSC [cxInfo 0, cxInfo 1, cxInfo 2, cxInfo 3] = _
  rw [bucketPhase.eq_def]
  show bucketPhase [cxB 5, cxB 6, cxB 7, cxB 8, cxB 9]
    0 cxName cxSC [cxInfo 0, cxInfo 1, cxInfo 2, cxInfo 3, cxInfo 4] = _
  rw [bucketPhase.eq_def]
  show bucketPhase [cxB 6, cxB 7, cxB 8, cxB 9]
    0 cxName cxSC [cxInfo 0, cxInfo 1, cxInfo 2, cxInfo 3, cxInfo 4,
      cxInfo 5] = _
  rw [bucketPhase.eq_def]
  show bucketPhase [cxB 7, cxB 8, cxB 9]
    0 cxName cxSC [cxInfo 0, cxInfo 1, cxInfo 2, cxInfo 3, cxInfo 4,
      cxInfo 5, cxInfo 6] = _
  rw [bucketPhase.eq_def]
  show bucketPhase [cxB 8, cxB 9]
    0 cxName cxSC [cxInfo 0, cxInfo 1, cxInfo 2, cxInfo 3, cxInfo 4,
      cxInfo 5, cxInfo 6, cxInfo 7] = _
  rw [bucketPhase.eq_def]
  show bucketPhase [cxB 9]
    0 cxName cxSC [cxInfo 0, cxInfo 1, cxInfo 2, cxInfo 3, cxInfo 4,
      cxInfo 5, cxInfo 6, cxInfo 7, cxInfo 8] = _
  rw [bucketPhase.eq_def]
  show bucketPhase []
    0 cxName cxSC [cxInfo 0, cxInfo 1, cxInfo 2, cxInfo 3, cxInfo 4,
      cxInfo 5, cxInfo 6, cxInfo 7, cxInfo 8, cxInfo 9] = _
  rw [bucketPhase.eq_def]
  rfl

/-- Evaluation of make_chunks on the C3 counterexample input: one chunk
containing all ten items. -/
theorem cx_make_chunks :
    make_chunks cxEnv cxItems [] (SideRefs.handle 3) =
      [⟨0, cxInfos, SideRefs.handle 3, cxName ++ ['-']⟩] := by
  have hfs : folderShortcut cxInfos 0 =
      Sum.inr ([cxB 0, cxB 1, cxB 2, cxB 3, cxB 4, cxB 5, cxB 6, cxB 7,
        cxB 8, cxB 9], 0) :=
    folderShortcut_many (by decide)
  show (folder_split cxInfos 0 cxName cxSC).chunks = _
  rw [folder_split, hfs]
  show (bucketPhase [cxB 0, cxB 1, cxB 2, cxB 3, cxB 4, cxB 5, cxB 6, cxB 7,
    cxB 8, cxB 9] 0 cxName cxSC []).chunks = _
  rw [cx_bucketPhase]
  rfl

/-- C3 counterexample: ten app units of size 30000 in ten distinct
folders produce a single flushed chunk of total size 300000 (at the
Large threshold) whose units do not form a single unsplittable folder
branch, so the claim's exception clause does not cover it. -/
theorem c3_counterexample :
    (make_chunks cxEnv cxItems [] (SideRefs.handle 3)).all
      (fun c => decide (sizeSum c.members < LARGE_CHUNK) ||
        singleFolderBranchB c.members) = false := by
  rw [cx_make_chunks]
  decide

/-- C3 amended: every chunk emitted by make_chunks has total size below
LARGE, except chunks all of whose units share one full ident (a single
branch that cannot be subdivided) and chunks formed by flushing the
folder splitter's remaining accumulator, all of whose units are
individually Small-sized; only such chunks may reach total size at or
above LARGE. -/
theorem c3_amended_large_chunks (env : ChunkEnv)
    (chunk_items : List (Nat × Option Nat)) (prefixKey : Str)
    (referenced_output_assets : SideRefs) (c : Chunk)
    (hc : c ∈ make_chunks env chunk_items prefixKey
      referenced_output_assets) : Dmembers c.members := by
  obtain ⟨s', hp, hch, hm⟩ := make_chunks_master env chunk_items prefixKey
    referenced_output_assets
  exact (hm c hc).2

/-- Witness for the amended C3 at a one-item invocation. -/
theorem c3_amended_large_chunks_witness :
    (⟨0, [⟨0, none, 100000, "a".data⟩], SideRefs.handle 7,
        "T-app".data⟩ : Chunk) ∈
      make_chunks wEnv [(0, none)] [] (SideRefs.handle 7) ∧
    Dmembers [(⟨0, none, 100000, "a".data⟩ : ChunkItemWithInfo)] := by
  refine ⟨by decide, ?_⟩
  have h := c3_amended_large_chunks wEnv [(0, none)] [] (SideRefs.handle 7)
    ⟨0, [⟨0, none, 100000, "a".data⟩], SideRefs.handle 7, "T-app".data⟩
    (by decide)
  exact h

/-- C10: every chunk emitted by make_chunks contains at least one unit;
no invocation produces a chunk with an empty member list. -/
theorem c10_no_empty_chunks (env : ChunkEnv)
    (chunk_items : List (Nat × Option Nat)) (prefixKey : Str)
    (referenced_output_assets : SideRefs) (c : Chunk)
    (hc : c ∈ make_chunks env chunk_items prefixKey
      referenced_output_assets) : c.members ≠ [] := by
  obtain ⟨s', hp, hch, hm⟩ := make_chunks_master env chunk_items prefixKey
    referenced_output_assets
  exact (hm c hc).1

/-- Witness for C10 at a one-item invocation. -/
theorem c10_no_empty_chunks_witness :
    (⟨0, [⟨0, none, 100000, "a".data⟩], SideRefs.handle 7,
        "T-app".data⟩ : Chunk) ∈
      make_chunks wEnv [(0, none)] [] (SideRefs.handle 7) ∧
    ([(⟨0, none, 100000, "a".data⟩ : ChunkItemWithInfo)] :
      List ChunkItemWithInfo) ≠ [] := by
  refine ⟨by decide, ?_⟩
  exact c10_no_empty_chunks wEnv [(0, none)] [] (SideRefs.handle 7)
    ⟨0, [⟨0, none, 100000, "a".data⟩], SideRefs.handle 7, "T-app".data⟩
    (by decide)

end Chunking
